import Mathlib

/-!
A verification development for the LevelUP "Simple Indexing" example
(`Simple-Index.md`).  JavaScript strings are modelled as lists of
characters (`Str`), the LevelUP/memdown store as an association list
sorted by the byte-lexicographic order of its encoded keys, and the
asynchronous `putPost` control flow as a three-stage step machine whose
suspension points are the store callbacks.
-/

/-- JavaScript strings, modelled as lists of Unicode code points. -/
abbrev Str : Type := List Char

/-- Code-point comparison of two characters; on the ASCII range this is
exactly byte order, which is the order memdown uses on encoded keys. -/
def chLt (a b : Char) : Bool := decide (a.toNat < b.toNat)

/-- Byte-lexicographic order on strings, as memdown compares encoded keys. -/
def ltStr : Str → Str → Bool
  | _, [] => false
  | [], _ :: _ => true
  | a :: as, b :: bs =>
    if chLt a b then true
    else if chLt b a then false
    else ltStr as bs

/-- Non-strict key comparison derived from `ltStr`. -/
def leStr (a b : Str) : Bool := !(ltStr b a)

/-- Component-wise lexicographic order on sequences of string components,
with components compared by `ltStr`. -/
def ltKey : List Str → List Str → Bool
  | _, [] => false
  | [], _ :: _ => true
  | a :: as, b :: bs =>
    if ltStr a b then true
    else if ltStr b a then false
    else ltKey as bs

theorem chLt_iff {a b : Char} : chLt a b = true ↔ a.toNat < b.toNat := by
  simp [chLt]

theorem chLt_irrefl (a : Char) : chLt a a = false := by
  simp [chLt]

theorem char_eq_of_toNat_eq {a b : Char} (h : a.toNat = b.toNat) : a = b := by
  apply Char.ext
  apply UInt32.ext
  simpa [Char.toNat] using h

theorem chLt_connex {a b : Char} (h1 : chLt a b = false) (h2 : chLt b a = false) :
    a = b := by
  apply char_eq_of_toNat_eq
  simp [chLt] at h1 h2
  omega

theorem ltStr_irrefl (a : Str) : ltStr a a = false := by
  induction a with
  | nil => rfl
  | cons c cs ih => simp [ltStr, chLt_irrefl, ih]

theorem ltStr_trans : ∀ {a b c : Str},
    ltStr a b = true → ltStr b c = true → ltStr a c = true
  | _, b, [], _, h => by simp [ltStr] at h
  | [], b, _ :: _, _, _ => rfl
  | _ :: _, [], _, h, _ => by simp [ltStr] at h
  | x :: xs, y :: ys, z :: zs, h1, h2 => by
    simp only [ltStr] at h1 h2 ⊢
    cases hxy : chLt x y with
    | true =>
      cases hyz : chLt y z with
      | true =>
        have : chLt x z = true := by
          rw [chLt_iff] at hxy hyz ⊢; omega
        simp [this]
      | false =>
        simp [hyz] at h2
        cases hzy : chLt z y with
        | true => simp [hzy] at h2
        | false =>
          have hyeqz : y = z := chLt_connex hyz hzy
          subst hyeqz
          simp [hxy]
    | false =>
      simp [hxy] at h1
      cases hyx : chLt y x with
      | true => simp [hyx] at h1
      | false =>
        have hxeqy : x = y := chLt_connex hxy hyx
        subst hxeqy
        simp [hxy] at h1 h2 ⊢
        cases hxz : chLt x z with
        | true => simp [hxz]
        | false =>
          simp [hxz] at h2 ⊢
          cases hzx : chLt z x with
          | true => simp [hzx] at h2
          | false =>
            simp [hzx] at h2 ⊢
            exact ltStr_trans h1 h2

theorem ltStr_connex : ∀ {a b : Str},
    ltStr a b = false → ltStr b a = false → a = b
  | [], [], _, _ => rfl
  | [], _ :: _, hF, _ => absurd hF (by simp [ltStr])
  | _ :: _, [], _, hF => absurd hF (by simp [ltStr])
  | x :: xs, y :: ys, h1, h2 => by
    simp only [ltStr] at h1 h2
    cases hxy : chLt x y with
    | true => simp [hxy] at h1
    | false =>
      cases hyx : chLt y x with
      | true => simp [hyx] at h2
      | false =>
        have hxeqy : x = y := chLt_connex hxy hyx
        subst hxeqy
        simp [hxy] at h1 h2
        rw [ltStr_connex h1 h2]

theorem ltStr_asymm {a b : Str} (h : ltStr a b = true) : ltStr b a = false := by
  by_contra hc
  have hba : ltStr b a = true := by
    cases hh : ltStr b a
    · exact absurd hh hc
    · rfl
  have := ltStr_trans h hba
  rw [ltStr_irrefl] at this
  cases this

/-- The apostrophe character, one of the characters `encodeURIComponent`
leaves unescaped. -/
def apos : Char := Char.ofNat 39

/-- Characters the JavaScript builtin `encodeURIComponent` leaves
unescaped: ASCII letters, digits, and `- _ . ! ~ * ( )` plus apostrophe. -/
def isUnreservedChar (c : Char) : Bool :=
  c.isAlpha || c.isDigit ||
    c == '-' || c == '_' || c == '.' || c == '!' || c == '~' ||
    c == '*' || c == apos || c == '(' || c == ')'

/-- Upper-case hexadecimal digit for a value below 16, as
`encodeURIComponent` emits in its percent escapes. -/
def hexDigit (n : Nat) : Char :=
  if n < 10 then Char.ofNat (48 + n) else Char.ofNat (55 + n)

/-- Value of one hexadecimal digit character, accepting the upper- and
lower-case ranges `decodeURIComponent` accepts. -/
def hexVal (c : Char) : Option Nat :=
  if 48 ≤ c.toNat ∧ c.toNat ≤ 57 then some (c.toNat - 48)
  else if 65 ≤ c.toNat ∧ c.toNat ≤ 70 then some (c.toNat - 55)
  else if 97 ≤ c.toNat ∧ c.toNat ≤ 102 then some (c.toNat - 87)
  else none

/-- UTF-8 byte sequence of a Unicode code point, the bytes
`encodeURIComponent` percent-escapes for characters it does not emit
literally. -/
def utf8Bytes (n : Nat) : List Nat :=
  if n < 128 then [n]
  else if n < 2048 then [192 + n / 64, 128 + n % 64]
  else if n < 65536 then [224 + n / 4096, 128 + n / 64 % 64, 128 + n % 64]
  else [240 + n / 262144, 128 + n / 4096 % 64, 128 + n / 64 % 64, 128 + n % 64]

/-- Percent escape of one byte. -/
def pctByte (b : Nat) : Str := ['%', hexDigit (b / 16), hexDigit (b % 16)]

/-- Encoding of one character under `encodeURIComponent`: unreserved
characters pass through, all others are percent-escaped byte by byte. -/
def encChar (c : Char) : Str :=
  if isUnreservedChar c then [c] else (utf8Bytes c.toNat).flatMap pctByte

/-- The JavaScript builtin `encodeURIComponent`, on the character-list
model of strings. -/
def encodeURIComponent : Str → Str
  | [] => []
  | c :: rest => encChar c ++ encodeURIComponent rest

/-- Combined value of a two-digit hexadecimal escape body. -/
def hex2 (h l : Char) : Option Nat :=
  match hexVal h, hexVal l with
  | some a, some b => some (16 * a + b)
  | _, _ => none

/-- One element of the percent-decoded stream: either a literal
character or the byte value of one percent escape. -/
abbrev Item : Type := Char ⊕ Nat

/-- First phase of the JavaScript builtin `decodeURIComponent`: read off
literal characters and two-digit percent escapes; a malformed escape
makes the builtin throw, modelled as `none`. -/
def pctDecode : Str → Option (List Item)
  | [] => some []
  | c :: rest =>
    if c = '%' then
      match rest with
      | h :: l :: r2 =>
        match hex2 h l, pctDecode r2 with
        | some b, some t => some (Sum.inr b :: t)
        | _, _ => none
      | _ => none
    else
      match pctDecode rest with
      | some t => some (Sum.inl c :: t)
      | none => none

/-- Completion of a UTF-8 sequence of byte length `len` with
accumulated code point `acc`: rejects overlong three-byte encodings,
surrogate code points, and values beyond the Unicode range, as the
builtin does. -/
def utf8Finish (len acc : Nat) : Option Char :=
  if len = 2 then some (Char.ofNat acc)
  else if len = 3 then
    if 2048 ≤ acc ∧ (acc < 55296 ∨ 57344 ≤ acc) then some (Char.ofNat acc) else none
  else
    if 65536 ≤ acc ∧ acc < 1114112 then some (Char.ofNat acc) else none

/-- Second phase of the builtin: reassemble UTF-8 sequences from escape
bytes; literal characters pass through; invalid sequences throw.  The
first argument holds an in-progress sequence: continuation bytes still
needed, total byte length, and the accumulated code point. -/
def utf8Assemble : Option (Nat × Nat × Nat) → List Item → Option Str
  | none, [] => some []
  | some _, [] => none
  | none, Sum.inl c :: rest => Option.map (fun t => c :: t) (utf8Assemble none rest)
  | none, Sum.inr b :: rest =>
    if b < 128 then Option.map (fun t => Char.ofNat b :: t) (utf8Assemble none rest)
    else if b < 194 then none
    else if b < 224 then utf8Assemble (some (1, 2, b - 192)) rest
    else if b < 240 then utf8Assemble (some (2, 3, b - 224)) rest
    else if b < 245 then utf8Assemble (some (3, 4, b - 240)) rest
    else none
  | some _, Sum.inl _ :: _ => none
  | some (need, len, acc), Sum.inr b :: rest =>
    if 128 ≤ b ∧ b < 192 then
      if need = 1 then
        match utf8Finish len (acc * 64 + (b - 128)) with
        | some ch => Option.map (fun t => ch :: t) (utf8Assemble none rest)
        | none => none
      else utf8Assemble (some (need - 1, len, acc * 64 + (b - 128))) rest
    else none

/-- The JavaScript builtin `decodeURIComponent`: percent escapes are
read off and reassembled as UTF-8, literal characters pass through;
anything the builtin throws on is `none`. -/
def decodeURIComponent (s : Str) : Option Str :=
  match pctDecode s with
  | some t => utf8Assemble none t
  | none => none

/-- Joining key components with the slash separator, as
`array.join(sep)` does. -/
def joinSep : List Str → Str
  | [] => []
  | [x] => x
  | x :: rest => x ++ '/' :: joinSep rest

/-- The key codec's `encode` from the source options:
`argument.map(encodeURIComponent).join(slash)`. -/
def encodeKey (k : List Str) : Str := joinSep (k.map encodeURIComponent)

/-- Splitting a string at slash separators, as `string.split(sep)` does;
the empty string yields one empty component. -/
def splitSlash : Str → List Str
  | [] => [[]]
  | c :: rest =>
    if c = '/' then [] :: splitSlash rest
    else
      match splitSlash rest with
      | [] => [[c]]
      | h :: t => (c :: h) :: t

/-- Decoding each split component, as `.map(decodeURIComponent)` does;
any component the builtin throws on makes the whole decode fail. -/
def decodeParts : List Str → Option (List Str)
  | [] => some []
  | p :: rest =>
    match decodeURIComponent p, decodeParts rest with
    | some d, some ds => some (d :: ds)
    | _, _ => none

/-- The key codec's `decode` from the source options:
`argument.split(slash).map(decodeURIComponent)`. -/
def decodeKey (s : Str) : Option (List Str) := decodeParts (splitSlash s)

theorem hexVal_hexDigit : ∀ m < 16, hexVal (hexDigit m) = some m := by decide

theorem hexDigit_ne_slash : ∀ m < 16, hexDigit m ≠ '/' := by decide

theorem hex2_pct {b : Nat} (h : b < 256) :
    hex2 (hexDigit (b / 16)) (hexDigit (b % 16)) = some b := by
  have h1 : b / 16 < 16 := by omega
  have h2 : b % 16 < 16 := by omega
  simp [hex2, hexVal_hexDigit _ h1, hexVal_hexDigit _ h2]
  omega

theorem char_valid_range (c : Char) :
    c.toNat < 55296 ∨ (57343 < c.toNat ∧ c.toNat < 1114112) := by
  have hv := c.valid
  simp [UInt32.isValidChar, Nat.isValidChar] at hv
  rcases hv with h | h
  · left; exact h
  · right; exact h

theorem percent_not_unreserved : isUnreservedChar '%' = false := by decide

/-- Item stream produced for one character by the encoder, used to relate
the two decoding phases to `encChar`. -/
def itemsChar (c : Char) : List Item :=
  if isUnreservedChar c then [Sum.inl c] else (utf8Bytes c.toNat).map Sum.inr

theorem pctDecode_lit {c : Char} (hc : ¬(c = '%')) (r : Str) :
    pctDecode (c :: r) = Option.map (fun t => Sum.inl c :: t) (pctDecode r) := by
  match r with
  | h :: l :: r2 =>
    rw [pctDecode.eq_2, if_neg hc]
    cases hh : pctDecode (h :: l :: r2) <;> simp
  | [] =>
    rw [pctDecode.eq_3 _ _ (by intro _ _ _ hh; cases hh), if_neg hc]
    simp [pctDecode]
  | [x] =>
    rw [pctDecode.eq_3 _ _ (by intro _ _ _ hh; cases hh), if_neg hc]
    cases hh : pctDecode [x] <;> simp

theorem pctDecode_pct {b : Nat} (hb : b < 256) (r : Str) :
    pctDecode (pctByte b ++ r) = Option.map (fun t => Sum.inr b :: t) (pctDecode r) := by
  simp only [pctByte, List.cons_append, List.nil_append]
  rw [pctDecode.eq_2, if_pos rfl, hex2_pct hb]
  cases h : pctDecode r <;> simp

theorem pctDecode_encChar (c : Char) (r : Str) :
    pctDecode (encChar c ++ r) =
      Option.map (fun t => itemsChar c ++ t) (pctDecode r) := by
  cases hu : isUnreservedChar c with
  | true =>
    have hcp : ¬(c = '%') := by
      intro h
      rw [h, percent_not_unreserved] at hu
      cases hu
    simp only [encChar, itemsChar, hu, if_true, List.cons_append, List.nil_append]
    rw [pctDecode_lit hcp]
  | false =>
    have hval := char_valid_range c
    simp only [encChar, itemsChar, hu, Bool.false_eq_true, if_false]
    rcases Nat.lt_or_ge c.toNat 128 with h1 | h1
    · rw [utf8Bytes, if_pos h1]
      simp only [List.flatMap_cons, List.flatMap_nil, List.append_nil, List.map_cons,
        List.map_nil]
      rw [pctDecode_pct (show c.toNat < 256 by omega)]
      cases h : pctDecode r <;> simp [h]
    · rcases Nat.lt_or_ge c.toNat 2048 with h2 | h2
      · rw [utf8Bytes, if_neg (show ¬c.toNat < 128 by omega), if_pos h2]
        simp only [List.flatMap_cons, List.flatMap_nil, List.append_nil, List.map_cons,
          List.map_nil]
        rw [List.append_assoc, pctDecode_pct (show 192 + c.toNat / 64 < 256 by omega),
          pctDecode_pct (show 128 + c.toNat % 64 < 256 by omega)]
        cases h : pctDecode r <;> simp [h]
      · rcases Nat.lt_or_ge c.toNat 65536 with h3 | h3
        · rw [utf8Bytes, if_neg (show ¬c.toNat < 128 by omega),
            if_neg (show ¬c.toNat < 2048 by omega), if_pos h3]
          simp only [List.flatMap_cons, List.flatMap_nil, List.append_nil,
            List.map_cons, List.map_nil]
          rw [List.append_assoc, List.append_assoc,
            pctDecode_pct (show 224 + c.toNat / 4096 < 256 by omega),
            pctDecode_pct (show 128 + c.toNat / 64 % 64 < 256 by omega),
            pctDecode_pct (show 128 + c.toNat % 64 < 256 by omega)]
          cases h : pctDecode r <;> simp [h]
        · rw [utf8Bytes, if_neg (show ¬c.toNat < 128 by omega),
            if_neg (show ¬c.toNat < 2048 by omega),
            if_neg (show ¬c.toNat < 65536 by omega)]
          simp only [List.flatMap_cons, List.flatMap_nil, List.append_nil,
            List.map_cons, List.map_nil]
          rw [List.append_assoc, List.append_assoc, List.append_assoc,
            pctDecode_pct (show 240 + c.toNat / 262144 < 256 by omega),
            pctDecode_pct (show 128 + c.toNat / 4096 % 64 < 256 by omega),
            pctDecode_pct (show 128 + c.toNat / 64 % 64 < 256 by omega),
            pctDecode_pct (show 128 + c.toNat % 64 < 256 by omega)]
          cases h : pctDecode r <;> simp [h]

theorem utf8Assemble_itemsChar (c : Char) (t : List Item) :
    utf8Assemble none (itemsChar c ++ t) =
      Option.map (fun s => c :: s) (utf8Assemble none t) := by
  cases hu : isUnreservedChar c with
  | true =>
    simp only [itemsChar, hu, if_true, List.cons_append, List.nil_append]
    rw [utf8Assemble.eq_3]
  | false =>
    have hval := char_valid_range c
    simp only [itemsChar, hu, Bool.false_eq_true, if_false]
    rcases Nat.lt_or_ge c.toNat 128 with h1 | h1
    · rw [utf8Bytes, if_pos h1]
      simp only [List.map_cons, List.map_nil, List.cons_append, List.nil_append]
      rw [utf8Assemble.eq_4, if_pos h1, Char.ofNat_toNat]
    · rcases Nat.lt_or_ge c.toNat 2048 with h2 | h2
      · rw [utf8Bytes, if_neg (show ¬c.toNat < 128 by omega), if_pos h2]
        simp only [List.map_cons, List.map_nil, List.cons_append, List.nil_append]
        rw [utf8Assemble.eq_4,
          if_neg (show ¬192 + c.toNat / 64 < 128 by omega),
          if_neg (show ¬192 + c.toNat / 64 < 194 by omega),
          if_pos (show 192 + c.toNat / 64 < 224 by omega)]
        rw [utf8Assemble.eq_6,
          if_pos (show 128 ≤ 128 + c.toNat % 64 ∧ 128 + c.toNat % 64 < 192 by omega),
          if_pos rfl]
        have hrec : (192 + c.toNat / 64 - 192) * 64 + (128 + c.toNat % 64 - 128)
            = c.toNat := by omega
        rw [hrec, utf8Finish, if_pos rfl, Char.ofNat_toNat]
      · rcases Nat.lt_or_ge c.toNat 65536 with h3 | h3
        · rw [utf8Bytes, if_neg (show ¬c.toNat < 128 by omega),
            if_neg (show ¬c.toNat < 2048 by omega), if_pos h3]
          simp only [List.map_cons, List.map_nil, List.cons_append, List.nil_append]
          rw [utf8Assemble.eq_4,
            if_neg (show ¬224 + c.toNat / 4096 < 128 by omega),
            if_neg (show ¬224 + c.toNat / 4096 < 194 by omega),
            if_neg (show ¬224 + c.toNat / 4096 < 224 by omega),
            if_pos (show 224 + c.toNat / 4096 < 240 by omega)]
          rw [utf8Assemble.eq_6,
            if_pos (show 128 ≤ 128 + c.toNat / 64 % 64 ∧ 128 + c.toNat / 64 % 64 < 192
              by omega),
            if_neg (show ¬(2 : Nat) = 1 by omega)]
          rw [utf8Assemble.eq_6,
            if_pos (show 128 ≤ 128 + c.toNat % 64 ∧ 128 + c.toNat % 64 < 192 by omega),
            if_pos (show (2 : Nat) - 1 = 1 by omega)]
          have hrec : ((224 + c.toNat / 4096 - 224) * 64
              + (128 + c.toNat / 64 % 64 - 128)) * 64 + (128 + c.toNat % 64 - 128)
              = c.toNat := by omega
          rw [hrec, utf8Finish, if_neg (show ¬(3 : Nat) = 2 by omega), if_pos rfl,
            if_pos (show 2048 ≤ c.toNat ∧ (c.toNat < 55296 ∨ 57344 ≤ c.toNat) by omega),
            Char.ofNat_toNat]
        · rw [utf8Bytes, if_neg (show ¬c.toNat < 128 by omega),
            if_neg (show ¬c.toNat < 2048 by omega),
            if_neg (show ¬c.toNat < 65536 by omega)]
          simp only [List.map_cons, List.map_nil, List.cons_append, List.nil_append]
          rw [utf8Assemble.eq_4,
            if_neg (show ¬240 + c.toNat / 262144 < 128 by omega),
            if_neg (show ¬240 + c.toNat / 262144 < 194 by omega),
            if_neg (show ¬240 + c.toNat / 262144 < 224 by omega),
            if_neg (show ¬240 + c.toNat / 262144 < 240 by omega),
            if_pos (show 240 + c.toNat / 262144 < 245 by omega)]
          rw [utf8Assemble.eq_6,
            if_pos (show 128 ≤ 128 + c.toNat / 4096 % 64 ∧ 128 + c.toNat / 4096 % 64 < 192
              by omega),
            if_neg (show ¬(3 : Nat) = 1 by omega)]
          rw [utf8Assemble.eq_6,
            if_pos (show 128 ≤ 128 + c.toNat / 64 % 64 ∧ 128 + c.toNat / 64 % 64 < 192
              by omega),
            if_neg (show ¬(3 : Nat) - 1 = 1 by omega)]
          rw [utf8Assemble.eq_6,
            if_pos (show 128 ≤ 128 + c.toNat % 64 ∧ 128 + c.toNat % 64 < 192 by omega),
            if_pos (show (3 : Nat) - 1 - 1 = 1 by omega)]
          have hrec : (((240 + c.toNat / 262144 - 240) * 64
              + (128 + c.toNat / 4096 % 64 - 128)) * 64
              + (128 + c.toNat / 64 % 64 - 128)) * 64 + (128 + c.toNat % 64 - 128)
              = c.toNat := by omega
          rw [hrec, utf8Finish, if_neg (show ¬(4 : Nat) = 2 by omega),
            if_neg (show ¬(4 : Nat) = 3 by omega),
            if_pos (show 65536 ≤ c.toNat ∧ c.toNat < 1114112 by omega),
            Char.ofNat_toNat]

theorem pctDecode_encodeURIComponent (s : Str) :
    pctDecode (encodeURIComponent s) = some (s.flatMap itemsChar) := by
  induction s with
  | nil => rfl
  | cons c s ih =>
    rw [encodeURIComponent, pctDecode_encChar, ih]
    simp

theorem utf8Assemble_flat (s : Str) :
    utf8Assemble none (s.flatMap itemsChar) = some s := by
  induction s with
  | nil => rfl
  | cons c s ih =>
    rw [List.flatMap_cons, utf8Assemble_itemsChar, ih]
    rfl

theorem decodeURIComponent_encodeURIComponent (s : Str) :
    decodeURIComponent (encodeURIComponent s) = some s := by
  rw [decodeURIComponent, pctDecode_encodeURIComponent]
  exact utf8Assemble_flat s

theorem slash_not_unreserved : isUnreservedChar '/' = false := by decide

theorem utf8Bytes_lt {n : Nat} (hn : n < 1114112) : ∀ b ∈ utf8Bytes n, b < 256 := by
  intro b hb
  rw [utf8Bytes] at hb
  split_ifs at hb with h1 h2 h3
  · simp at hb; omega
  · simp at hb; rcases hb with hb | hb <;> omega
  · simp at hb; rcases hb with hb | hb | hb <;> omega
  · simp at hb; rcases hb with hb | hb | hb | hb <;> omega

theorem encChar_ne_slash {c x : Char} (hx : x ∈ encChar c) : ¬(x = '/') := by
  rw [encChar] at hx
  by_cases hu : isUnreservedChar c = true
  · rw [if_pos hu] at hx
    simp at hx
    subst hx
    intro h
    rw [h, slash_not_unreserved] at hu
    cases hu
  · rw [if_neg hu] at hx
    have hval := char_valid_range c
    rcases List.mem_flatMap.mp hx with ⟨b, hb, hxb⟩
    have hb256 : b < 256 := utf8Bytes_lt (by omega) b hb
    rw [pctByte] at hxb
    simp at hxb
    rcases hxb with hxb | hxb | hxb
    · subst hxb; decide
    · subst hxb; exact hexDigit_ne_slash _ (by omega)
    · subst hxb; exact hexDigit_ne_slash _ (by omega)

theorem encodeURIComponent_no_slash (s : Str) :
    ∀ x ∈ encodeURIComponent s, ¬(x = '/') := by
  induction s with
  | nil => intro x hx; cases hx
  | cons c r ih =>
    intro x hx
    rw [encodeURIComponent] at hx
    rcases List.mem_append.mp hx with hx | hx
    · exact encChar_ne_slash hx
    · exact ih x hx

theorem splitSlash_no_slash {u : Str} (hu : ∀ x ∈ u, ¬(x = '/')) :
    splitSlash u = [u] := by
  induction u with
  | nil => rfl
  | cons c r ih =>
    rw [splitSlash, if_neg (hu c (List.mem_cons_self c r))]
    rw [ih (fun x hx => hu x (List.mem_cons_of_mem c hx))]

theorem splitSlash_append {u : Str} (v : Str) (hu : ∀ x ∈ u, ¬(x = '/')) :
    splitSlash (u ++ '/' :: v) = u :: splitSlash v := by
  induction u with
  | nil =>
    rw [List.nil_append, splitSlash, if_pos rfl]
  | cons c r ih =>
    rw [List.cons_append, splitSlash, if_neg (hu c (List.mem_cons_self c r))]
    rw [ih (fun x hx => hu x (List.mem_cons_of_mem c hx))]

theorem decodeKey_encodeKey : ∀ {ks : List Str}, ks ≠ [] →
    decodeKey (encodeKey ks) = some ks
  | [], h => absurd rfl h
  | [k], _ => by
    rw [decodeKey, encodeKey]
    simp only [List.map_cons, List.map_nil]
    rw [joinSep, splitSlash_no_slash (encodeURIComponent_no_slash k)]
    rw [decodeParts, decodeURIComponent_encodeURIComponent]
    rfl
  | k1 :: k2 :: kt, _ => by
    rw [decodeKey, encodeKey]
    simp only [List.map_cons]
    rw [joinSep, splitSlash_append _ (encodeURIComponent_no_slash k1)]
    rw [decodeParts, decodeURIComponent_encodeURIComponent]
    have hrest := @decodeKey_encodeKey (k2 :: kt) (by simp)
    rw [decodeKey, encodeKey] at hrest
    simp only [List.map_cons] at hrest
    rw [hrest]
    nofun

theorem encodeKey_inj {A B : List Str} (hA : A ≠ []) (hB : B ≠ [])
    (h : encodeKey A = encodeKey B) : A = B := by
  have hr := decodeKey_encodeKey hA
  rw [h, decodeKey_encodeKey hB] at hr
  exact (Option.some.inj hr).symm

/-- Characters that survive `encodeURIComponent` unchanged and sort
strictly after the slash separator; on components built from them the
codec is the identity and joining preserves order. -/
def goodChar (c : Char) : Bool := isUnreservedChar c && chLt '/' c

/-- A component all of whose characters are order-safe. -/
def goodStr (s : Str) : Bool := s.all goodChar

/-- A key sequence all of whose components are order-safe. -/
def goodKey (k : List Str) : Bool := k.all goodStr

theorem goodKey_cons {s : Str} {t : List Str} :
    goodKey (s :: t) = true ↔ goodStr s = true ∧ goodKey t = true := by
  simp [goodKey]

theorem goodStr_cons {c : Char} {r : Str} :
    goodStr (c :: r) = true ↔ goodChar c = true ∧ goodStr r = true := by
  simp [goodStr]

theorem goodChar_slash_lt {c : Char} (h : goodChar c = true) : chLt '/' c = true :=
  ((Bool.and_eq_true _ _).mp h).2

theorem goodChar_not_lt_slash {c : Char} (h : goodChar c = true) :
    chLt c '/' = false := by
  have h2 := goodChar_slash_lt h
  rw [chLt_iff] at h2
  simp only [chLt, decide_eq_false_iff_not]
  omega

theorem encChar_good {c : Char} (h : goodChar c = true) : encChar c = [c] := by
  rw [encChar, if_pos ((Bool.and_eq_true _ _).mp h).1]

theorem encodeURIComponent_good {s : Str} (h : goodStr s = true) :
    encodeURIComponent s = s := by
  induction s with
  | nil => rfl
  | cons c r ih =>
    rcases goodStr_cons.mp h with ⟨h1, h2⟩
    rw [encodeURIComponent, encChar_good h1, ih h2]
    rfl

theorem encodeKey_good {k : List Str} (h : goodKey k = true) :
    encodeKey k = joinSep k := by
  rw [encodeKey]
  congr 1
  induction k with
  | nil => rfl
  | cons s t ih =>
    rcases goodKey_cons.mp h with ⟨h1, h2⟩
    rw [List.map_cons, encodeURIComponent_good h1, ih h2]

theorem joinSep_cons (c : Char) (a : Str) (as : List Str) :
    joinSep ((c :: a) :: as) = c :: joinSep (a :: as) := by
  cases as with
  | nil => rfl
  | cons x t => rfl

theorem ltStr_nil_right (a : Str) : ltStr a [] = false := by
  cases a <;> rfl

theorem ltStr_cons_cons (a b : Char) (as bs : Str) :
    ltStr (a :: as) (b :: bs) =
      if chLt a b then true else if chLt b a then false else ltStr as bs := rfl

theorem ltKey_cons_cons (a b : Str) (as bs : List Str) :
    ltKey (a :: as) (b :: bs) =
      if ltStr a b then true else if ltStr b a then false else ltKey as bs := rfl

theorem ltStr_nil_left (b : Char) (bs : Str) : ltStr [] (b :: bs) = true := rfl

theorem joinSep_nil_cons (x : Str) (t : List Str) :
    joinSep ([] :: x :: t) = '/' :: joinSep (x :: t) := rfl

theorem joinSep_lt : ∀ (A B : List Str), A ≠ [] → B ≠ [] →
    goodKey A = true → goodKey B = true →
    ltStr (joinSep A) (joinSep B) = ltKey A B
  | [], _, hA, _, _, _ => absurd rfl hA
  | _ :: _, [], _, hB, _, _ => absurd rfl hB
  | [[]], [[]], _, _, _, _ => by decide
  | [[]], [] :: b2 :: bs, _, _, _, _ => rfl
  | [] :: a2 :: as, [[]], _, _, _, _ => rfl
  | [] :: a2 :: as, [] :: b2 :: bs, _, _, gA, gB => by
    have ih := joinSep_lt (a2 :: as) (b2 :: bs) (by simp) (by simp)
      (goodKey_cons.mp gA).2 (goodKey_cons.mp gB).2
    rw [ltKey_cons_cons, ltStr_nil_right]
    simp only [Bool.false_eq_true, if_false]
    rw [joinSep_nil_cons, joinSep_nil_cons, ltStr_cons_cons, chLt_irrefl]
    simp only [Bool.false_eq_true, if_false]
    exact ih
  | [] :: as, (d :: b') :: bs, _, _, gA, gB => by
    rw [ltKey_cons_cons, ltStr_nil_left]
    simp only [eq_self_iff_true, if_true]
    rw [joinSep_cons]
    cases as with
    | nil => rfl
    | cons x t =>
      rw [joinSep_nil_cons, ltStr_cons_cons,
        goodChar_slash_lt (goodStr_cons.mp (goodKey_cons.mp gB).1).1]
      simp only [eq_self_iff_true, if_true]
  | (c :: a') :: as, [] :: bs, _, _, gA, gB => by
    rw [ltKey_cons_cons, ltStr_nil_right, ltStr_nil_left]
    simp only [Bool.false_eq_true, if_false, eq_self_iff_true, if_true]
    rw [joinSep_cons]
    cases bs with
    | nil => rfl
    | cons y u =>
      rw [joinSep_nil_cons, ltStr_cons_cons,
        goodChar_not_lt_slash (goodStr_cons.mp (goodKey_cons.mp gA).1).1,
        goodChar_slash_lt (goodStr_cons.mp (goodKey_cons.mp gA).1).1]
      simp only [Bool.false_eq_true, if_false, eq_self_iff_true, if_true]
  | (c :: a') :: as, (d :: b') :: bs, _, _, gA, gB => by
    rw [joinSep_cons, joinSep_cons, ltStr_cons_cons, ltKey_cons_cons,
      ltStr_cons_cons c d a' b', ltStr_cons_cons d c b' a']
    cases hcd : chLt c d with
    | true => simp only [eq_self_iff_true, if_true]
    | false =>
      cases hdc : chLt d c with
      | true =>
        simp only [Bool.false_eq_true, if_false, eq_self_iff_true, if_true]
      | false =>
        have hceq : c = d := chLt_connex hcd hdc
        subst hceq
        simp only [Bool.false_eq_true, if_false]
        have hgA : goodKey (a' :: as) = true := by
          rcases goodKey_cons.mp gA with ⟨h1, h2⟩
          exact goodKey_cons.mpr ⟨(goodStr_cons.mp h1).2, h2⟩
        have hgB : goodKey (b' :: bs) = true := by
          rcases goodKey_cons.mp gB with ⟨h1, h2⟩
          exact goodKey_cons.mpr ⟨(goodStr_cons.mp h1).2, h2⟩
        have ih := joinSep_lt (a' :: as) (b' :: bs) (by simp) (by simp) hgA hgB
        rw [ih, ltKey_cons_cons]
termination_by A B _ _ _ _ => (A.map List.length).sum + A.length
decreasing_by
  all_goals simp [List.map_cons, List.sum_cons, List.length_cons]

/-- The blog-post records of the example: title, date, author, slug,
and text fields, all strings. -/
structure Post where
  title : Str
  date : Str
  author : Str
  slug : Str
  text : Str
deriving DecidableEq

/-- JSON values the example stores: the empty-string placeholder of
by-author records, the projected field subset of date records, and the
full post object. -/
inductive Value where
  | emptyV : Value
  | projV : Str → Str → Str → Str → Value
  | postV : Post → Value
deriving DecidableEq

/-- The memdown key-value store: an association list kept sorted by
`ltStr` on encoded keys, which is memdown's native byte order. -/
abbrev Store : Type := List (Str × Value)

/-- Point read by encoded key, as `level.get` resolves a key. -/
def sget : Store → Str → Option Value
  | [], _ => none
  | (k, v) :: r, key => if k = key then some v else sget r key

/-- Sorted insert, replacing any existing binding, as one `put` leaves
the store. -/
def sinsert (key : Str) (v : Value) : Store → Store
  | [] => [(key, v)]
  | (k, w) :: r =>
    if ltStr key k then (key, v) :: (k, w) :: r
    else if key = k then (key, v) :: r
    else (k, w) :: sinsert key v r

/-- An atomic batch of puts, as `level.batch` applies them. -/
def batchPut (st : Store) (ops : List (Str × Value)) : Store :=
  ops.foldl (fun s op => sinsert op.1 op.2 s) st

/-- The store invariant: entries strictly sorted by encoded key. -/
def sortedStore (st : Store) : Prop :=
  st.Pairwise (fun a b => ltStr a.1 b.1 = true)

/-- Keys within the inclusive bounds of a levelup range query. -/
def inRange (gte lte k : Str) : Bool := leStr gte k && leStr k lte

/-- The entries a `createReadStream` with inclusive `gte`/`lte` bounds
delivers, in stored (sorted) order. -/
def rangeScan (st : Store) (gte lte : Str) : Store :=
  st.filter (fun e => inRange gte lte e.1)

theorem sget_sinsert_self (st : Store) (key : Str) (v : Value) :
    sget (sinsert key v st) key = some v := by
  induction st with
  | nil => simp [sinsert, sget]
  | cons e r ih =>
    rcases e with ⟨k, w⟩
    rw [sinsert]
    by_cases h1 : ltStr key k = true
    · rw [if_pos h1, sget, if_pos rfl]
    · rw [if_neg h1]
      by_cases h2 : key = k
      · rw [if_pos h2, sget, if_pos rfl]
      · rw [if_neg h2, sget, if_neg (fun hh => h2 hh.symm)]
        exact ih

theorem sget_sinsert_ne (st : Store) {key key' : Str} (v : Value)
    (h : ¬(key' = key)) : sget (sinsert key v st) key' = sget st key' := by
  induction st with
  | nil =>
    have hne : ¬(key = key') := fun hh => h hh.symm
    simp [sinsert, sget, hne]
  | cons e r ih =>
    rcases e with ⟨k, w⟩
    rw [sinsert]
    by_cases h1 : ltStr key k = true
    · rw [if_pos h1, sget, if_neg (fun hh => h hh.symm), sget]
    · rw [if_neg h1]
      by_cases h2 : key = k
      · rw [if_pos h2, sget, if_neg (fun hh => h hh.symm), ← h2, sget,
          if_neg (fun hh => h hh.symm)]
      · rw [if_neg h2, sget, sget]
        by_cases h3 : k = key'
        · rw [if_pos h3, if_pos h3]
        · rw [if_neg h3, if_neg h3]
          exact ih

theorem self_mem_sinsert (st : Store) (key : Str) (v : Value) :
    (key, v) ∈ sinsert key v st := by
  induction st with
  | nil => simp [sinsert]
  | cons e r ih =>
    rcases e with ⟨k, w⟩
    rw [sinsert]
    by_cases h1 : ltStr key k = true
    · rw [if_pos h1]; exact List.mem_cons_self _ _
    · rw [if_neg h1]
      by_cases h2 : key = k
      · rw [if_pos h2]; exact List.mem_cons_self _ _
      · rw [if_neg h2]; exact List.mem_cons_of_mem _ ih

theorem mem_sinsert_of_mem (st : Store) {a : Str} {b : Value} (key : Str)
    (v : Value) (hm : (a, b) ∈ st) (hne : ¬(a = key)) :
    (a, b) ∈ sinsert key v st := by
  induction st with
  | nil => cases hm
  | cons e r ih =>
    rcases e with ⟨k, w⟩
    rw [sinsert]
    by_cases h1 : ltStr key k = true
    · rw [if_pos h1]; exact List.mem_cons_of_mem _ hm
    · rw [if_neg h1]
      rcases List.mem_cons.mp hm with hm | hm
      · by_cases h2 : key = k
        · rw [if_pos h2]
          refine List.mem_cons_of_mem _ ?_
          cases hm
          exact absurd (h2.symm) hne
        · rw [if_neg h2]
          exact hm ▸ List.mem_cons_self _ _
      · by_cases h2 : key = k
        · rw [if_pos h2]; exact List.mem_cons_of_mem _ hm
        · rw [if_neg h2]; exact List.mem_cons_of_mem _ (ih hm)

theorem ltStr_total {a b : Str} (h1 : ltStr a b = false) (hne : ¬(a = b)) :
    ltStr b a = true := by
  cases h2 : ltStr b a
  · exact absurd (ltStr_connex h1 h2) hne
  · rfl

theorem mem_sinsert_sub (st : Store) {e : Str × Value} (key : Str) (v : Value)
    (hm : e ∈ sinsert key v st) : e = (key, v) ∨ e ∈ st := by
  induction st with
  | nil => simpa [sinsert] using hm
  | cons f r ih =>
    rcases f with ⟨k, w⟩
    rw [sinsert] at hm
    by_cases h1 : ltStr key k = true
    · rw [if_pos h1] at hm
      rcases List.mem_cons.mp hm with hm | hm
      · exact Or.inl hm
      · exact Or.inr hm
    · rw [if_neg h1] at hm
      by_cases h2 : key = k
      · rw [if_pos h2] at hm
        rcases List.mem_cons.mp hm with hm | hm
        · exact Or.inl hm
        · exact Or.inr (List.mem_cons_of_mem _ hm)
      · rw [if_neg h2] at hm
        rcases List.mem_cons.mp hm with hm | hm
        · exact Or.inr (hm ▸ List.mem_cons_self _ _)
        · rcases ih hm with hh | hh
          · exact Or.inl hh
          · exact Or.inr (List.mem_cons_of_mem _ hh)

theorem sorted_sinsert {st : Store} (hs : sortedStore st) (key : Str) (v : Value) :
    sortedStore (sinsert key v st) := by
  induction st with
  | nil => simp [sortedStore, sinsert]
  | cons f r ih =>
    rcases f with ⟨k, w⟩
    rw [sortedStore, List.pairwise_cons] at hs
    rcases hs with ⟨hk, hr⟩
    rw [sinsert]
    by_cases h1 : ltStr key k = true
    · rw [if_pos h1]
      rw [sortedStore, List.pairwise_cons]
      constructor
      · intro e he
        rcases List.mem_cons.mp he with he | he
        · subst he; exact h1
        · exact ltStr_trans h1 (hk e he)
      · rw [List.pairwise_cons]
        exact ⟨hk, hr⟩
    · rw [if_neg h1]
      by_cases h2 : key = k
      · rw [if_pos h2]
        rw [sortedStore, List.pairwise_cons]
        subst h2
        exact ⟨hk, hr⟩
      · rw [if_neg h2]
        rw [sortedStore, List.pairwise_cons]
        constructor
        · intro e he
          rcases mem_sinsert_sub r key v he with he | he
          · subst he
            show ltStr k key = true
            have h1f : ltStr key k = false := by
              cases hh : ltStr key k
              · rfl
              · exact absurd hh h1
            exact ltStr_total h1f h2
          · exact hk e he
        · exact ih hr

theorem sget_of_mem : ∀ {st : Store}, sortedStore st → ∀ {k : Str} {v : Value},
    (k, v) ∈ st → sget st k = some v := by
  intro st
  induction st with
  | nil => intro _ k v hm; cases hm
  | cons f r ih =>
    rcases f with ⟨k1, w⟩
    intro hs k v hm
    rw [sortedStore, List.pairwise_cons] at hs
    rcases hs with ⟨hk1, hr⟩
    rcases List.mem_cons.mp hm with hm | hm
    · cases hm
      rw [sget, if_pos rfl]
    · have hlt : ltStr k1 k = true := hk1 (k, v) hm
      have hne : ¬(k1 = k) := by
        intro hh
        rw [hh, ltStr_irrefl] at hlt
        cases hlt
      rw [sget, if_neg hne]
      exact ih hr hm

theorem mem_of_sget : ∀ {st : Store} {k : Str} {v : Value},
    sget st k = some v → (k, v) ∈ st := by
  intro st
  induction st with
  | nil => intro k v h; cases h
  | cons f r ih =>
    rcases f with ⟨k1, w⟩
    intro k v h
    rw [sget] at h
    by_cases h1 : k1 = k
    · rw [if_pos h1] at h
      subst h1
      cases Option.some.inj h
      exact List.mem_cons_self _ _
    · rw [if_neg h1] at h
      exact List.mem_cons_of_mem _ (ih h)

theorem not_mem_of_sget_none : ∀ {st : Store} {k : Str},
    sget st k = none → ∀ v : Value, (k, v) ∉ st := by
  intro st
  induction st with
  | nil => intro k _ v hm; cases hm
  | cons f r ih =>
    rcases f with ⟨k1, w⟩
    intro k h v hm
    rw [sget] at h
    by_cases h1 : k1 = k
    · rw [if_pos h1] at h; cases h
    · rw [if_neg h1] at h
      rcases List.mem_cons.mp hm with hm | hm
      · cases hm; exact h1 rfl
      · exact ih h v hm

/-- The `posts` namespace component. -/
def postsNS : Str := ['p', 'o', 's', 't', 's']

/-- The `by` namespace component. -/
def byNS : Str := ['b', 'y']

/-- The `date` namespace component. -/
def dateNS : Str := ['d', 'a', 't', 'e']

/-- The encoded primary key `[ posts, post.slug ]` of `putPost`. -/
def postKeyOf (p : Post) : Str := encodeKey [postsNS, p.slug]

/-- The batch `putPost` submits: the by-author index record, the date
index record with its projected value, and the primary record, in
source order. -/
def batchOf (p : Post) : List (Str × Value) :=
  [ (encodeKey [byNS, p.author, p.slug], Value.emptyV),
    (encodeKey [dateNS, p.date, p.slug],
      Value.projV p.title p.date p.author p.slug),
    (encodeKey [postsNS, p.slug], Value.postV p) ]

/-- Errors surfaced to callbacks in the example: the lock conflict, the
duplicate-slug rejection, a store failure passed through, and the
not-found error of `level.get`. -/
inductive Err where
  | conflict : Err
  | slugTaken : Err
  | storeFailure : Err
  | notFound : Err
deriving DecidableEq

/-- A LevelUP instance plus the process-local `level-lock` table. -/
structure LState where
  store : Store
  locks : List Str
deriving DecidableEq

/-- Progress of one `putPost` call: program counter (0 before the
synchronous lock attempt, 1 awaiting the existence read, 2 awaiting the
batch, 3 done), the value handed to the callback (`none` is success),
and how many times the call ran `unlock`. -/
structure CallSt where
  pc : Nat
  res : Option Err
  unlocks : Nat
deriving DecidableEq

/-- A call that has not started yet. -/
def initCall : CallSt := ⟨0, none, 0⟩

/-- One stage of `putPost` between suspension points.  Stage 0 runs the
synchronous `lock` call and issues the existence read; stage 1 runs the
existence callback and issues the batch; stage 2 runs the batch
callback, which calls `unlock()` and then the final callback.  The
flags `fe` and `fb` inject a store failure into the existence read and
the batch apply respectively. -/
def stepCall (fe fb : Bool) (p : Post) : LState × CallSt → LState × CallSt
  | (st, c) =>
    if c.pc = 0 then
      if postKeyOf p ∈ st.locks then
        (st, ⟨3, some Err.conflict, c.unlocks⟩)
      else
        (⟨st.store, postKeyOf p :: st.locks⟩, ⟨1, none, c.unlocks⟩)
    else if c.pc = 1 then
      if fe then (st, ⟨3, some Err.storeFailure, c.unlocks⟩)
      else if (sget st.store (postKeyOf p)).isSome then
        (st, ⟨3, some Err.slugTaken, c.unlocks⟩)
      else (st, ⟨2, none, c.unlocks⟩)
    else if c.pc = 2 then
      if fb then
        (⟨st.store, st.locks.erase (postKeyOf p)⟩,
          ⟨3, some Err.storeFailure, c.unlocks + 1⟩)
      else
        (⟨batchPut st.store (batchOf p), st.locks.erase (postKeyOf p)⟩,
          ⟨3, none, c.unlocks + 1⟩)
    else (st, c)

/-- The whole `putPost` call run to completion: its three stages in
sequence, with no other activity interleaved. -/
def putPost (fe fb : Bool) (st : LState) (p : Post) : LState × CallSt :=
  stepCall fe fb p (stepCall fe fb p (stepCall fe fb p (st, initCall)))

theorem stepCall_done (fe fb : Bool) (p : Post) (st : LState) (c : CallSt)
    (h : c.pc = 3) : stepCall fe fb p (st, c) = (st, c) := by
  rw [stepCall]
  rw [h]
  rw [if_neg (by decide), if_neg (by decide), if_neg (by decide)]

theorem stepCall_start_conflict {st : LState} {p : Post} (fe fb : Bool)
    (h : postKeyOf p ∈ st.locks) :
    stepCall fe fb p (st, initCall) = (st, ⟨3, some Err.conflict, 0⟩) := by
  rw [stepCall]
  dsimp only [initCall]
  rw [if_pos rfl, if_pos h]

theorem stepCall_start_lock {st : LState} {p : Post} (fe fb : Bool)
    (h : ¬(postKeyOf p ∈ st.locks)) :
    stepCall fe fb p (st, initCall) =
      (⟨st.store, postKeyOf p :: st.locks⟩, ⟨1, none, 0⟩) := by
  rw [stepCall]
  dsimp only [initCall]
  rw [if_pos rfl, if_neg h]

theorem stepCall_read_err (fb : Bool) (p : Post) (sto : Store) (lks : List Str) :
    stepCall true fb p (⟨sto, lks⟩, ⟨1, none, 0⟩) =
      (⟨sto, lks⟩, ⟨3, some Err.storeFailure, 0⟩) := by
  rw [stepCall]
  dsimp only
  rw [if_neg (by decide), if_pos rfl, if_pos rfl]

theorem stepCall_read_dup (fb : Bool) {p : Post} {sto : Store} (lks : List Str)
    (he : (sget sto (postKeyOf p)).isSome = true) :
    stepCall false fb p (⟨sto, lks⟩, ⟨1, none, 0⟩) =
      (⟨sto, lks⟩, ⟨3, some Err.slugTaken, 0⟩) := by
  rw [stepCall]
  dsimp only
  rw [if_neg (by decide), if_pos rfl, if_neg (by decide), if_pos he]

theorem stepCall_read_free (fb : Bool) {p : Post} {sto : Store} (lks : List Str)
    (he : (sget sto (postKeyOf p)).isSome = false) :
    stepCall false fb p (⟨sto, lks⟩, ⟨1, none, 0⟩) =
      (⟨sto, lks⟩, ⟨2, none, 0⟩) := by
  rw [stepCall]
  dsimp only
  rw [if_neg (by decide), if_pos rfl, if_neg (by decide), if_neg (by simp [he])]

theorem stepCall_batch_err (fe : Bool) (p : Post) (sto : Store) (lks : List Str) :
    stepCall fe true p (⟨sto, lks⟩, ⟨2, none, 0⟩) =
      (⟨sto, lks.erase (postKeyOf p)⟩, ⟨3, some Err.storeFailure, 1⟩) := by
  rw [stepCall]
  dsimp only
  rw [if_neg (by decide), if_neg (by decide), if_pos rfl, if_pos rfl]

theorem stepCall_batch_ok (fe : Bool) (p : Post) (sto : Store) (lks : List Str) :
    stepCall fe false p (⟨sto, lks⟩, ⟨2, none, 0⟩) =
      (⟨batchPut sto (batchOf p), lks.erase (postKeyOf p)⟩, ⟨3, none, 1⟩) := by
  rw [stepCall]
  dsimp only
  rw [if_neg (by decide), if_neg (by decide), if_pos rfl, if_neg (by decide)]

theorem putPost_conflict {st : LState} {p : Post} (fe fb : Bool)
    (h : postKeyOf p ∈ st.locks) :
    putPost fe fb st p = (st, ⟨3, some Err.conflict, 0⟩) := by
  rw [putPost, stepCall_start_conflict fe fb h,
    stepCall_done fe fb p st ⟨3, some Err.conflict, 0⟩ rfl,
    stepCall_done fe fb p st ⟨3, some Err.conflict, 0⟩ rfl]

theorem putPost_exists_err {st : LState} {p : Post} (fb : Bool)
    (h : ¬(postKeyOf p ∈ st.locks)) :
    putPost true fb st p =
      (⟨st.store, postKeyOf p :: st.locks⟩, ⟨3, some Err.storeFailure, 0⟩) := by
  rw [putPost, stepCall_start_lock true fb h,
    stepCall_read_err fb p st.store (postKeyOf p :: st.locks),
    stepCall_done true fb p _ ⟨3, some Err.storeFailure, 0⟩ rfl]

theorem putPost_dup {st : LState} {p : Post} (fb : Bool)
    (h : ¬(postKeyOf p ∈ st.locks))
    (he : (sget st.store (postKeyOf p)).isSome = true) :
    putPost false fb st p =
      (⟨st.store, postKeyOf p :: st.locks⟩, ⟨3, some Err.slugTaken, 0⟩) := by
  rw [putPost, stepCall_start_lock false fb h,
    stepCall_read_dup fb (postKeyOf p :: st.locks) he,
    stepCall_done false fb p _ ⟨3, some Err.slugTaken, 0⟩ rfl]

theorem putPost_batch_err {st : LState} {p : Post}
    (h : ¬(postKeyOf p ∈ st.locks))
    (he : (sget st.store (postKeyOf p)).isSome = false) :
    putPost false true st p =
      (⟨st.store, st.locks⟩, ⟨3, some Err.storeFailure, 1⟩) := by
  rw [putPost, stepCall_start_lock false true h,
    stepCall_read_free true (postKeyOf p :: st.locks) he,
    stepCall_batch_err false p st.store (postKeyOf p :: st.locks)]
  rw [List.erase_cons_head]

theorem putPost_ok {st : LState} {p : Post}
    (h : ¬(postKeyOf p ∈ st.locks))
    (he : (sget st.store (postKeyOf p)).isSome = false) :
    putPost false false st p =
      (⟨batchPut st.store (batchOf p), st.locks⟩, ⟨3, none, 1⟩) := by
  rw [putPost, stepCall_start_lock false false h,
    stepCall_read_free false (postKeyOf p :: st.locks) he,
    stepCall_batch_ok false p st.store (postKeyOf p :: st.locks)]
  rw [List.erase_cons_head]

/-- The slug component `key[2]` of a decoded streamed key; the fallback
branches are unreachable for the key shapes the example stores. -/
def slugOf (k : Str) : Str := ((decodeKey k).getD []).getD 2 []

/-- The fan-out `async.map(slugs, getPost, callback)`: one `level.get`
of `[ posts, slug ]` per collected slug, results in order, any get
error surfaced to the final callback. -/
def mapGet (st : Store) : List Str → Except Err (List Value)
  | [] => Except.ok []
  | s :: rest =>
    match sget st (encodeKey [postsNS, s]) with
    | some v =>
      match mapGet st rest with
      | Except.ok vs => Except.ok (v :: vs)
      | Except.error e => Except.error e
    | none => Except.error Err.notFound

/-- `postsBy`: stream the keys of the author's range with bounds
`gte [by, name, ""]` and `lte [by, name, "~"]`, collect the slug
component `key[2]` of each, then fan out point reads of the post
records. -/
def postsBy (st : Store) (name : Str) : Except Err (List Value) :=
  let keys := (rangeScan st (encodeKey [byNS, name, []])
    (encodeKey [byNS, name, ['~']])).map Prod.fst
  let slugs := keys.map slugOf
  mapGet st slugs

/-- `oldestPosts`: stream the values of the date range with
`reverse: true` and `limit: howMany`. -/
def oldestPosts (st : Store) (howMany : Nat) : List Value :=
  (((rangeScan st (encodeKey [dateNS, []]) (encodeKey [dateNS, ['~']])).map
    Prod.snd).reverse).take howMany

/-- The primary record `putPost` writes for a post. -/
def postEntry (p : Post) : Str × Value :=
  (encodeKey [postsNS, p.slug], Value.postV p)

/-- The by-author index record `putPost` writes for a post. -/
def byEntry (p : Post) : Str × Value :=
  (encodeKey [byNS, p.author, p.slug], Value.emptyV)

/-- The date index record `putPost` writes for a post. -/
def dateEntry (p : Post) : Str × Value :=
  (encodeKey [dateNS, p.date, p.slug],
    Value.projV p.title p.date p.author p.slug)

/-- States reachable from the fresh store by `putPost` calls, with any
pattern of injected store failures. -/
inductive Reachable : LState → Prop where
  | init : Reachable ⟨[], []⟩
  | put : ∀ {st : LState} (fe fb : Bool) (p : Post),
      Reachable st → Reachable (putPost fe fb st p).1

/-- The maintained-store invariant: sorted, and every entry is the
primary, by-author, or date record of some post whose three records are
all present. -/
def WF (st : Store) : Prop :=
  sortedStore st ∧
  ∀ e ∈ st, ∃ p : Post,
    postEntry p ∈ st ∧ byEntry p ∈ st ∧ dateEntry p ∈ st ∧
    (e = postEntry p ∨ e = byEntry p ∨ e = dateEntry p)

theorem encodeKey_pair_inj {x1 x2 y1 y2 : Str}
    (h : encodeKey [x1, x2] = encodeKey [y1, y2]) : x1 = y1 ∧ x2 = y2 := by
  have := encodeKey_inj (by simp) (by simp) h
  simp at this
  exact this

theorem encodeKey_triple_inj {x1 x2 x3 y1 y2 y3 : Str}
    (h : encodeKey [x1, x2, x3] = encodeKey [y1, y2, y3]) :
    x1 = y1 ∧ x2 = y2 ∧ x3 = y3 := by
  have := encodeKey_inj (by simp) (by simp) h
  simp at this
  exact this

theorem encodeKey_pair_ne_triple (x1 x2 y1 y2 y3 : Str) :
    ¬(encodeKey [x1, x2] = encodeKey [y1, y2, y3]) := by
  intro h
  have := encodeKey_inj (by simp) (by simp) h
  simp at this

theorem byNS_ne_dateNS : ¬(byNS = dateNS) := by decide

theorem postKey_ne_byKey (s a s' : Str) :
    ¬(encodeKey [postsNS, s] = encodeKey [byNS, a, s']) :=
  encodeKey_pair_ne_triple postsNS s byNS a s'

theorem postKey_ne_dateKey (s d s' : Str) :
    ¬(encodeKey [postsNS, s] = encodeKey [dateNS, d, s']) :=
  encodeKey_pair_ne_triple postsNS s dateNS d s'

theorem byKey_ne_dateKey (a s d s' : Str) :
    ¬(encodeKey [byNS, a, s] = encodeKey [dateNS, d, s']) := by
  intro h
  exact byNS_ne_dateNS (encodeKey_triple_inj h).1

theorem postKey_inj {s s' : Str}
    (h : encodeKey [postsNS, s] = encodeKey [postsNS, s']) : s = s' :=
  (encodeKey_pair_inj h).2

theorem WF_batch {sto : Store} (hwf : WF sto) (p : Post)
    (hnone : sget sto (postKeyOf p) = none) :
    WF (batchPut sto (batchOf p)) := by
  rcases hwf with ⟨hsorted, hshape⟩
  have hbp : batchPut sto (batchOf p)
      = sinsert (postEntry p).1 (postEntry p).2
          (sinsert (dateEntry p).1 (dateEntry p).2
            (sinsert (byEntry p).1 (byEntry p).2 sto)) := rfl
  have hfresh : ∀ v, (postKeyOf p, v) ∉ sto := not_mem_of_sget_none hnone
  have slug_ne : ∀ q : Post, postEntry q ∈ sto → ¬(q.slug = p.slug) := by
    intro q hq heq
    apply hfresh (Value.postV q)
    have : postEntry q = (postKeyOf p, Value.postV q) := by
      rw [postEntry, postKeyOf, heq]
    rw [← this]
    exact hq
  have hpnew : postEntry p ∈ batchPut sto (batchOf p) := by
    rw [hbp]
    exact self_mem_sinsert _ _ _
  have hdnew : dateEntry p ∈ batchPut sto (batchOf p) := by
    rw [hbp]
    apply mem_sinsert_of_mem
    · exact self_mem_sinsert _ _ _
    · intro h
      exact postKey_ne_dateKey p.slug p.date p.slug h.symm
  have hbnew : byEntry p ∈ batchPut sto (batchOf p) := by
    rw [hbp]
    apply mem_sinsert_of_mem
    · apply mem_sinsert_of_mem
      · exact self_mem_sinsert _ _ _
      · exact byKey_ne_dateKey p.author p.slug p.date p.slug
    · intro h
      exact postKey_ne_byKey p.slug p.author p.slug h.symm
  have hmem_new : ∀ e : Str × Value, e ∈ sto →
      ¬(e.1 = (byEntry p).1) → ¬(e.1 = (dateEntry p).1) →
      ¬(e.1 = (postEntry p).1) → e ∈ batchPut sto (batchOf p) := by
    intro e hm h1 h2 h3
    rw [hbp]
    exact mem_sinsert_of_mem _ _ _
      (mem_sinsert_of_mem _ _ _ (mem_sinsert_of_mem _ _ _ hm h1) h2) h3
  have hsurv : ∀ q : Post, postEntry q ∈ sto →
      ∀ e : Str × Value, e ∈ sto →
      (e = postEntry q ∨ e = byEntry q ∨ e = dateEntry q) →
      e ∈ batchPut sto (batchOf p) := by
    intro q hq e he hform
    have hsl := slug_ne q hq
    apply hmem_new e he
    · rcases hform with hform | hform | hform <;> subst hform
      · exact fun h => postKey_ne_byKey q.slug p.author p.slug h
      · intro h
        exact hsl (encodeKey_triple_inj h).2.2
      · intro h
        exact byNS_ne_dateNS (encodeKey_triple_inj h).1.symm
    · rcases hform with hform | hform | hform <;> subst hform
      · exact fun h => postKey_ne_dateKey q.slug p.date p.slug h
      · exact fun h => byKey_ne_dateKey q.author q.slug p.date p.slug h
      · intro h
        exact hsl (encodeKey_triple_inj h).2.2
    · rcases hform with hform | hform | hform <;> subst hform
      · intro h
        exact hsl (postKey_inj h)
      · exact fun h => postKey_ne_byKey p.slug q.author q.slug h.symm
      · exact fun h => postKey_ne_dateKey p.slug q.date q.slug h.symm
  constructor
  · rw [hbp]
    exact sorted_sinsert (sorted_sinsert (sorted_sinsert hsorted _ _) _ _) _ _
  · intro e he
    rw [hbp] at he
    rcases mem_sinsert_sub _ _ _ he with he | he
    · refine ⟨p, hpnew, hbnew, hdnew, Or.inl ?_⟩
      rw [he]
    · rcases mem_sinsert_sub _ _ _ he with he | he
      · refine ⟨p, hpnew, hbnew, hdnew, Or.inr (Or.inr ?_)⟩
        rw [he]
      · rcases mem_sinsert_sub _ _ _ he with he | he
        · refine ⟨p, hpnew, hbnew, hdnew, Or.inr (Or.inl ?_)⟩
          rw [he]
        · rcases hshape e he with ⟨q, hq, hqb, hqd, hform⟩
          exact ⟨q, hsurv q hq _ hq (Or.inl rfl), hsurv q hq _ hqb (Or.inr (Or.inl rfl)),
            hsurv q hq _ hqd (Or.inr (Or.inr rfl)), hform⟩

theorem isSome_false_eq_none {o : Option Value} (h : o.isSome = false) :
    o = none := by
  cases o
  · rfl
  · cases h

theorem WF_reachable : ∀ {st : LState}, Reachable st → WF st.store := by
  intro st h
  induction h with
  | init => exact ⟨List.Pairwise.nil, fun e he => absurd he (List.not_mem_nil e)⟩
  | put fe fb p hr ih =>
    rename_i st'
    by_cases hl : postKeyOf p ∈ st'.locks
    · rw [putPost_conflict fe fb hl]
      exact ih
    · cases fe with
      | true =>
        rw [putPost_exists_err fb hl]
        exact ih
      | false =>
        cases hsome : (sget st'.store (postKeyOf p)).isSome with
        | true =>
          rw [putPost_dup fb hl hsome]
          exact ih
        | false =>
          have hnone : sget st'.store (postKeyOf p) = none :=
            isSome_false_eq_none hsome
          cases fb with
          | true =>
            rw [putPost_batch_err hl hsome]
            exact ih
          | false =>
            rw [putPost_ok hl hsome]
            exact WF_batch ih p hnone

/-- The first example post (`firstByAna` in the source). -/
def firstByAna : Post :=
  ⟨['A', 'n', 'a', apos, 's', ' ', 'F', 'i', 'r', 's', 't', ' ', 'P', 'o', 's', 't'],
   ['2', '0', '1', '6', '-', '0', '1', '-', '0', '1'],
   ['a', 'n', 'a'],
   ['a', 'n', 'a', '-', '1'],
   ['P', 'o', 's', 't', 'e', 'd', '!']⟩

/-- The second example post (`secondByBob` in the source). -/
def secondByBob : Post :=
  ⟨['B', 'o', 'b', ',', ' ', 'T', 'o', 'o', '!'],
   ['2', '0', '1', '6', '-', '0', '1', '-', '0', '2'],
   ['b', 'o', 'b'],
   ['b', 'o', 'b', '-', '1'],
   ['B', 'o', 'b', ' ', 'w', 'r', 'i', 't', 'e', '!']⟩

/-- The third example post (`thirdByAna` in the source). -/
def thirdByAna : Post :=
  ⟨['A', 'n', 'a', apos, 's', ' ', 'S', 'e', 'c', 'o', 'n', 'd', ' ', 'P', 'o', 's', 't'],
   ['2', '0', '1', '6', '-', '0', '1', '-', '0', '3'],
   ['a', 'n', 'a'],
   ['a', 'n', 'a', '-', '2'],
   ['M', 'o', 'r', 'e', ' ', 'A', 'n', 'a', '.']⟩

/-- State after storing the first example post. -/
def scenario1 : LState := (putPost false false ⟨[], []⟩ firstByAna).1

/-- State after storing the first two example posts. -/
def scenario2 : LState := (putPost false false scenario1 secondByBob).1

/-- State after storing all three example posts, as the source's
`putAndQueryData` leaves the store. -/
def scenario3 : LState := (putPost false false scenario2 thirdByAna).1


/-- C7 counterexample: for the empty sequence of components the claim
fails, because encoding gives the empty string, which splits into one
empty component: decode(encode([])) = [""] ≠ []. -/
theorem C7_roundtrip_cex :
    decodeKey (encodeKey []) = some [[]] ∧ ¬(decodeKey (encodeKey []) = some []) := by
  decide

/-- C7 (amended): for every nonempty ordered sequence of string
components, decoding the encoding yields the original sequence:
decode(encode(components)) = components, where encode joins
encodeURIComponent-escaped components with a slash and decode splits on
slashes and unescapes. -/
theorem C7_roundtrip (ks : List Str) (h : ¬(ks = [])) :
    decodeKey (encodeKey ks) = some ks :=
  decodeKey_encodeKey h

/-- C7 witness: the round trip at the concrete key of the first
example post. -/
theorem C7_roundtrip_witness :
    ¬(([postsNS, firstByAna.slug] : List Str) = []) ∧
      decodeKey (encodeKey [postsNS, firstByAna.slug]) =
        some [postsNS, firstByAna.slug] :=
  ⟨by decide, C7_roundtrip [postsNS, firstByAna.slug] (by decide)⟩

/-- C2 counterexample: the codec does not preserve order.  The sequence
A = ["a", "b"] precedes B = ["a!"] component-wise (since "a" is a proper
prefix of "a!"), but encode(A) = "a/b" follows encode(B) = "a!" in byte
order, because the separator byte 0x2F sorts above 0x21. -/
theorem C2_order_cex :
    ltKey [['a'], ['b']] [['a', '!']] = true ∧
      ¬(ltStr (encodeKey [['a'], ['b']]) (encodeKey [['a', '!']]) = true) := by
  decide

/-- C2 (amended): the codec preserves byte-lexicographic order exactly
on nonempty sequences whose components use only characters that
encodeURIComponent leaves unescaped and that sort after the slash
separator (alphanumerics, underscore, tilde): for such A and B,
encode(A) < encode(B) in the store's byte order iff A is component-wise
lexicographically less than B. -/
theorem C2_order (A B : List Str) (hA : ¬(A = [])) (hB : ¬(B = []))
    (gA : goodKey A = true) (gB : goodKey B = true) :
    (ltStr (encodeKey A) (encodeKey B) = true ↔ ltKey A B = true) := by
  rw [encodeKey_good gA, encodeKey_good gB, joinSep_lt A B hA hB gA gB]

/-- C2 witness: order preservation at the concrete keys
["by", "ana"] and ["by", "bob"]. -/
theorem C2_order_witness :
    ¬(([byNS, ['a', 'n', 'a']] : List Str) = []) ∧
      ¬(([byNS, ['b', 'o', 'b']] : List Str) = []) ∧
      goodKey [byNS, ['a', 'n', 'a']] = true ∧
      goodKey [byNS, ['b', 'o', 'b']] = true ∧
      (ltStr (encodeKey [byNS, ['a', 'n', 'a']]) (encodeKey [byNS, ['b', 'o', 'b']]) = true
        ↔ ltKey [byNS, ['a', 'n', 'a']] [byNS, ['b', 'o', 'b']] = true) :=
  ⟨by decide, by decide, by decide, by decide,
    C2_order [byNS, ['a', 'n', 'a']] [byNS, ['b', 'o', 'b']]
      (by decide) (by decide) (by decide) (by decide)⟩

/-- C1 (code bug): on the duplicate-slug rejection and on the
existence-check store error, `putPost` returns to its caller without
ever calling `unlock()`: the write lock on the primary key is acquired
but never released (the key stays in the lock table), while on the
batch paths it is released exactly once.  Evaluated on the store that
already holds the post with slug "ana-1". -/
theorem C1_lock_leak :
    (putPost false false scenario1 firstByAna).2.res = some Err.slugTaken ∧
    (putPost false false scenario1 firstByAna).2.unlocks = 0 ∧
    postKeyOf firstByAna ∈ (putPost false false scenario1 firstByAna).1.locks ∧
    (putPost true false scenario1 secondByBob).2.res = some Err.storeFailure ∧
    (putPost true false scenario1 secondByBob).2.unlocks = 0 ∧
    postKeyOf secondByBob ∈ (putPost true false scenario1 secondByBob).1.locks ∧
    (putPost false false ⟨[], []⟩ firstByAna).2.unlocks = 1 ∧
    (putPost false true ⟨[], []⟩ firstByAna).2.unlocks = 1 := by
  decide

/-- C5: in every store state whose key-value contents already hold a
primary record for a slug (and whose lock table is free for that key,
the store reporting the existence check without failure), `putPost` on
an entity bearing that slug calls back with the 'Slug already taken'
rejection and the write is not applied: the store contents are
unchanged. -/
theorem C5_duplicate_rejected (st : LState) (p : Post) (fb : Bool)
    (hl : ¬(postKeyOf p ∈ st.locks))
    (he : (sget st.store (postKeyOf p)).isSome = true) :
    (putPost false fb st p).2.res = some Err.slugTaken ∧
    (putPost false fb st p).1.store = st.store := by
  rw [putPost_dup fb hl he]
  exact ⟨rfl, rfl⟩

/-- C5 witness: writing a second entity with slug "ana-1" after the
first example post is stored. -/
theorem C5_duplicate_rejected_witness :
    ¬(postKeyOf firstByAna ∈ scenario1.locks) ∧
    (sget scenario1.store (postKeyOf firstByAna)).isSome = true ∧
    ((putPost false false scenario1 firstByAna).2.res = some Err.slugTaken ∧
      (putPost false false scenario1 firstByAna).1.store = scenario1.store) :=
  ⟨by decide, by decide,
    C5_duplicate_rejected scenario1 firstByAna false (by decide) (by decide)⟩

/-- C10: when `putPost` fails before the batch apply — with Conflict
because the lock is held, with a store error from the existence check,
or with the duplicate-slug rejection — the store's key-value contents
are unchanged: no put is issued on any of these error paths. -/
theorem C10_no_write_before_batch (st : LState) (p : Post) (fe fb : Bool) :
    (postKeyOf p ∈ st.locks →
      (putPost fe fb st p).1.store = st.store ∧
      (putPost fe fb st p).2.res = some Err.conflict) ∧
    (¬(postKeyOf p ∈ st.locks) → fe = true →
      (putPost fe fb st p).1.store = st.store ∧
      (putPost fe fb st p).2.res = some Err.storeFailure) ∧
    (¬(postKeyOf p ∈ st.locks) → fe = false →
      (sget st.store (postKeyOf p)).isSome = true →
      (putPost fe fb st p).1.store = st.store ∧
      (putPost fe fb st p).2.res = some Err.slugTaken) := by
  refine ⟨fun hl => ?_, fun hl hfe => ?_, fun hl hfe he => ?_⟩
  · rw [putPost_conflict fe fb hl]
    exact ⟨rfl, rfl⟩
  · subst hfe
    rw [putPost_exists_err fb hl]
    exact ⟨rfl, rfl⟩
  · subst hfe
    rw [putPost_dup fb hl he]
    exact ⟨rfl, rfl⟩

/-- C10 witness: the duplicate-slug error path at the concrete
duplicate write of slug "ana-1". -/
theorem C10_no_write_before_batch_witness :
    ¬(postKeyOf firstByAna ∈ scenario1.locks) ∧
    (sget scenario1.store (postKeyOf firstByAna)).isSome = true ∧
    ((putPost false false scenario1 firstByAna).1.store = scenario1.store ∧
      (putPost false false scenario1 firstByAna).2.res = some Err.slugTaken) :=
  ⟨by decide, by decide,
    (C10_no_write_before_batch scenario1 firstByAna false false).2.2
      (by decide) rfl (by decide)⟩

/-- Recognizes a stored entry as a by-author index record bearing slug
`s`, by the decoded shape of its key. -/
def isByFor (s : Str) (e : Str × Value) : Bool :=
  match decodeKey e.1 with
  | some [n, _, s2] => n == byNS && s2 == s
  | _ => false

/-- Recognizes a stored entry as a date index record bearing slug `s`,
by the decoded shape of its key. -/
def isDateFor (s : Str) (e : Str × Value) : Bool :=
  match decodeKey e.1 with
  | some [n, _, s2] => n == dateNS && s2 == s
  | _ => false

/-- Whether a point read of the primary key for slug `s` returns a full
post record. -/
def hasPrimary (st : Store) (s : Str) : Bool :=
  match sget st (encodeKey [postsNS, s]) with
  | some (Value.postV _) => true
  | _ => false

/-- An entry is orphan-free: if its key decodes to an index-namespace
triple, the slug component has a primary record. -/
def orphanFree (st : Store) (e : Str × Value) : Bool :=
  match decodeKey e.1 with
  | some [n, _, s2] =>
    if n == byNS || n == dateNS then hasPrimary st s2 else true
  | _ => true

theorem decodeKey_postEntry (q : Post) :
    decodeKey (postEntry q).1 = some [postsNS, q.slug] :=
  decodeKey_encodeKey (by simp)

theorem decodeKey_byEntry (q : Post) :
    decodeKey (byEntry q).1 = some [byNS, q.author, q.slug] :=
  decodeKey_encodeKey (by simp)

theorem decodeKey_dateEntry (q : Post) :
    decodeKey (dateEntry q).1 = some [dateNS, q.date, q.slug] :=
  decodeKey_encodeKey (by simp)

theorem hasPrimary_of_postEntry {st : Store} (hs : sortedStore st) {q : Post}
    (hq : postEntry q ∈ st) : hasPrimary st q.slug = true := by
  rw [hasPrimary, sget_of_mem hs hq]

/-- C4: in every store state reachable by writes through `putPost`, for
every primary record there is exactly one by-author index record and
exactly one date index record, whose keys and values equal what the
index derivations produce from the primary record's fields (a point
read of the primary key is the hypothesis, returning the full record),
and no index record's slug lacks a corresponding primary record. -/
theorem C4_index_invariant (st : LState) (hr : Reachable st) (s : Str) (p : Post)
    (hget : sget st.store (encodeKey [postsNS, s]) = some (Value.postV p)) :
    p.slug = s ∧
    byEntry p ∈ st.store ∧ dateEntry p ∈ st.store ∧
    (∀ e ∈ st.store, isByFor s e = true → e = byEntry p) ∧
    (∀ e ∈ st.store, isDateFor s e = true → e = dateEntry p) ∧
    (∀ e ∈ st.store, orphanFree st.store e = true) := by
  rcases WF_reachable hr with ⟨hsorted, hshape⟩
  have hmem : ((encodeKey [postsNS, s] : Str), Value.postV p) ∈ st.store :=
    mem_of_sget hget
  rcases hshape _ hmem with ⟨q, hq, hqb, hqd, hform⟩
  have hpq : p = q ∧ q.slug = s := by
    rcases hform with hform | hform | hform
    · rw [postEntry, Prod.mk.injEq] at hform
      rcases hform with ⟨hk, hv⟩
      exact ⟨Value.postV.inj hv, (postKey_inj hk).symm⟩
    · rw [byEntry, Prod.mk.injEq] at hform
      exact absurd hform.1 (postKey_ne_byKey s q.author q.slug)
    · rw [dateEntry, Prod.mk.injEq] at hform
      exact absurd hform.1 (postKey_ne_dateKey s q.date q.slug)
  rcases hpq with ⟨hpq, hqs⟩
  subst hpq
  have hslug : p.slug = s := hqs
  have unique_post : ∀ q' : Post, postEntry q' ∈ st.store → q'.slug = s → q' = p := by
    intro q' hq' hs'
    have h2 : sget st.store (encodeKey [postsNS, s]) = some (Value.postV q') := by
      rw [← hs']
      exact sget_of_mem hsorted hq'
    rw [hget] at h2
    exact (Value.postV.inj (Option.some.inj h2)).symm
  refine ⟨hslug, hqb, hqd, ?_, ?_, ?_⟩
  · intro e he hby
    rcases hshape e he with ⟨q', hq', hq'b, hq'd, hform'⟩
    rcases hform' with hf | hf | hf <;> subst hf
    · rw [isByFor, decodeKey_postEntry] at hby
      cases hby
    · rw [isByFor, decodeKey_byEntry] at hby
      simp at hby
      have : q' = p := unique_post q' hq' hby
      rw [this]
    · rw [isByFor, decodeKey_dateEntry] at hby
      simp [byNS, dateNS] at hby
  · intro e he hdt
    rcases hshape e he with ⟨q', hq', hq'b, hq'd, hform'⟩
    rcases hform' with hf | hf | hf <;> subst hf
    · rw [isDateFor, decodeKey_postEntry] at hdt
      cases hdt
    · rw [isDateFor, decodeKey_byEntry] at hdt
      simp [byNS, dateNS] at hdt
    · rw [isDateFor, decodeKey_dateEntry] at hdt
      simp at hdt
      have : q' = p := unique_post q' hq' hdt
      rw [this]
  · intro e he
    rcases hshape e he with ⟨q', hq', hq'b, hq'd, hform'⟩
    rcases hform' with hf | hf | hf <;> subst hf
    · rw [orphanFree, decodeKey_postEntry]
    · rw [orphanFree, decodeKey_byEntry]
      simp only [beq_self_eq_true, Bool.true_or, if_true]
      exact hasPrimary_of_postEntry hsorted hq'
    · rw [orphanFree, decodeKey_dateEntry]
      simp only [beq_self_eq_true, Bool.or_true, if_true]
      exact hasPrimary_of_postEntry hsorted hq'

/-- C4 witness: the invariant at the concrete one-post state. -/
theorem C4_index_invariant_witness :
    sget scenario1.store (encodeKey [postsNS, firstByAna.slug]) =
      some (Value.postV firstByAna) ∧
    (firstByAna.slug = firstByAna.slug ∧
      byEntry firstByAna ∈ scenario1.store ∧
      dateEntry firstByAna ∈ scenario1.store ∧
      (∀ e ∈ scenario1.store, isByFor firstByAna.slug e = true → e = byEntry firstByAna) ∧
      (∀ e ∈ scenario1.store, isDateFor firstByAna.slug e = true → e = dateEntry firstByAna) ∧
      (∀ e ∈ scenario1.store, orphanFree scenario1.store e = true)) :=
  ⟨by decide,
    C4_index_invariant scenario1 (Reachable.put false false firstByAna Reachable.init)
      firstByAna.slug firstByAna (by decide)⟩

/-- A component consisting only of characters `encodeURIComponent`
leaves unescaped, so its encoding is itself. -/
def plainStr (s : Str) : Bool := s.all isUnreservedChar

theorem encodeURIComponent_plain {s : Str} (h : plainStr s = true) :
    encodeURIComponent s = s := by
  induction s with
  | nil => rfl
  | cons c r ih =>
    rw [plainStr, List.all_cons, Bool.and_eq_true] at h
    rw [encodeURIComponent, encChar, if_pos h.1, ih h.2]
    rfl

/-- The date attribute of a stored value (the projection's date field). -/
def dateOf : Value → Str
  | Value.projV _ d _ _ => d
  | _ => []

/-- An entry whose key is a well-formed date-index key: decodes to
`[date, d, slug]` with an order-safe date of length `L` that matches
the value's date attribute. -/
def dateShaped (L : Nat) (e : Str × Value) : Bool :=
  match decodeKey e.1 with
  | some [n, d, s2] =>
    n == dateNS && plainStr d && d.length == L && dateOf e.2 == d &&
      e.1 == encodeKey [dateNS, d, s2]
  | _ => false

theorem dateShaped_elim {L : Nat} {e : Str × Value} (h : dateShaped L e = true) :
    ∃ d s2, e.1 = encodeKey [dateNS, d, s2] ∧ plainStr d = true ∧
      d.length = L ∧ dateOf e.2 = d := by
  rw [dateShaped] at h
  rcases hdk : decodeKey e.1 with _ | l
  · rw [hdk] at h
    cases h
  · rw [hdk] at h
    match l, h with
    | [n, d, s2], h =>
      rw [Bool.and_eq_true, Bool.and_eq_true, Bool.and_eq_true, Bool.and_eq_true] at h
      rcases h with ⟨⟨⟨⟨hn, hg⟩, hlen⟩, hdo⟩, hkey⟩
      exact ⟨d, s2, by simpa using hkey, hg, by simpa using hlen, by simpa using hdo⟩
    | [], h => cases h
    | [_], h => cases h
    | [_, _], h => cases h
    | _ :: _ :: _ :: _ :: _, h => cases h

theorem ltStr_append_left (x u v : Str) : ltStr (x ++ u) (x ++ v) = ltStr u v := by
  induction x with
  | nil => rfl
  | cons c r ih =>
    rw [List.cons_append, List.cons_append, ltStr_cons_cons, chLt_irrefl]
    simp only [Bool.false_eq_true, if_false]
    exact ih

theorem ltStr_append_eq_len : ∀ {d d' u v : Str}, d.length = d'.length →
    ltStr (d ++ u) (d' ++ v) = true →
    (d = d' ∧ ltStr u v = true) ∨ ltStr d d' = true
  | [], [], u, v, _, h => Or.inl ⟨rfl, h⟩
  | [], _ :: _, _, _, he, _ => absurd he (by simp)
  | _ :: _, [], _, _, he, _ => absurd he (by simp)
  | c :: dt, c' :: dt', u, v, hlen, h => by
    rw [List.cons_append, List.cons_append, ltStr_cons_cons] at h
    rw [ltStr_cons_cons]
    cases hcc : chLt c c' with
    | true => right; simp [hcc]
    | false =>
      rw [hcc] at h
      simp only [Bool.false_eq_true, if_false] at h
      cases hc'c : chLt c' c with
      | true =>
        rw [hc'c] at h
        simp at h
      | false =>
        rw [hc'c] at h
        simp only [Bool.false_eq_true, if_false] at h
        have hlen' : dt.length = dt'.length := by simpa using hlen
        rcases ltStr_append_eq_len hlen' h with ⟨hdd, huv⟩ | hdd
        · left
          exact ⟨by rw [chLt_connex hcc hc'c, hdd], huv⟩
        · right
          simp [hcc, hc'c, hdd]

theorem dateKey_encode_split (dd ss : Str) (hdd : plainStr dd = true) :
    encodeKey [dateNS, dd, ss] =
      (dateNS ++ ['/']) ++ (dd ++ '/' :: encodeURIComponent ss) := by
  rw [encodeKey]
  simp only [List.map_cons, List.map_nil]
  rw [encodeURIComponent_plain (by decide), encodeURIComponent_plain hdd]
  rfl

theorem dateKey_lt {d d' s2 s2' : Str} (hg : plainStr d = true)
    (hg' : plainStr d' = true) (hlen : d.length = d'.length)
    (h : ltStr (encodeKey [dateNS, d, s2]) (encodeKey [dateNS, d', s2']) = true) :
    ltStr d' d = false := by
  rw [dateKey_encode_split d s2 hg, dateKey_encode_split d' s2' hg'] at h
  rw [ltStr_append_left] at h
  rcases ltStr_append_eq_len hlen h with ⟨hdd, _⟩ | hdd
  · rw [hdd, ltStr_irrefl]
  · exact ltStr_asymm hdd

/-- A post with a date that `encodeURIComponent` escapes (a space). -/
def cexSpaceDate : Post := ⟨['t'], [' '], ['a'], ['s', '1'], ['x']⟩

/-- A post with an unescaped punctuation date that sorts below the
space's percent escape. -/
def cexBangDate : Post := ⟨['u'], ['!'], ['b'], ['s', '2'], ['y']⟩

/-- A reachable two-post state whose dates are " " and "!". -/
def cexDateState : LState :=
  (putPost false false (putPost false false ⟨[], []⟩ cexSpaceDate).1 cexBangDate).1

/-- C3 counterexample: on the reachable store holding posts dated " "
and "!", the scan returns the " " projection before the "!" projection,
although " " sorts before "!": the output is not in descending
date-attribute order, because the space is stored percent-escaped as
"%20", which sorts above "!". -/
theorem C3_ordered_scan_cex :
    oldestPosts cexDateState.store 2 =
      [Value.projV ['t'] [' '] ['a'] ['s', '1'],
        Value.projV ['u'] ['!'] ['b'] ['s', '2']] ∧
    ltStr [' '] ['!'] = true ∧
    ¬((oldestPosts cexDateState.store 2).Pairwise
      (fun v w => ltStr (dateOf v) (dateOf w) = false)) := by
  refine ⟨by decide, by decide, ?_⟩
  rw [show oldestPosts cexDateState.store 2 =
    [Value.projV ['t'] [' '] ['a'] ['s', '1'],
      Value.projV ['u'] ['!'] ['b'] ['s', '2']] from by decide]
  intro h
  have h2 := List.rel_of_pairwise_cons h (List.mem_cons_self _ _)
  rw [show dateOf (Value.projV ['t'] [' '] ['a'] ['s', '1']) = [' '] from rfl,
    show dateOf (Value.projV ['u'] ['!'] ['b'] ['s', '2']) = ['!'] from rfl] at h2
  rw [show ltStr [' '] ['!'] = true from by decide] at h2
  cases h2

/-- C3 (amended): the ordered range scan `oldestPosts` returns at most
N entries, and its output is sorted by the date attribute in descending
order ("oldest first" in the source's labeling, which the scenario
fixes as descending) provided every in-range entry is a well-formed
date record whose date uses only unescaped characters and a single
fixed length, as the example's ISO-8601 dates do; and on the store of the
three scenario posts, the scan with limit 2 returns ana-2's projection
followed by bob-1's projection. -/
theorem C3_ordered_scan :
    (∀ (st : Store) (N L : Nat), sortedStore st →
      (∀ e ∈ st,
        inRange (encodeKey [dateNS, []]) (encodeKey [dateNS, ['~']]) e.1 = true →
        dateShaped L e = true) →
      (oldestPosts st N).length ≤ N ∧
      (oldestPosts st N).Pairwise
        (fun v w => ltStr (dateOf v) (dateOf w) = false)) ∧
    oldestPosts scenario3.store 2 =
      [Value.projV thirdByAna.title thirdByAna.date thirdByAna.author thirdByAna.slug,
        Value.projV secondByBob.title secondByBob.date secondByBob.author
          secondByBob.slug] := by
  constructor
  · intro st N L hs hshape
    constructor
    · rw [oldestPosts]
      exact List.length_take_le _ _
    · rw [oldestPosts]
      apply List.Pairwise.sublist (List.take_sublist _ _)
      rw [List.pairwise_reverse, List.pairwise_map]
      have hmem : ∀ e ∈ rangeScan st (encodeKey [dateNS, []])
          (encodeKey [dateNS, ['~']]), dateShaped L e = true := by
        intro e he
        rcases List.mem_filter.mp he with ⟨hest, hr⟩
        exact hshape e hest hr
      have hps : (rangeScan st (encodeKey [dateNS, []])
          (encodeKey [dateNS, ['~']])).Pairwise (fun a b => ltStr a.1 b.1 = true) :=
        List.Pairwise.sublist (List.filter_sublist _) hs
      refine List.Pairwise.imp_of_mem ?_ hps
      intro a b ha hb hlt
      rcases dateShaped_elim (hmem a ha) with ⟨d, s2, hk, hg, hlen, hdo⟩
      rcases dateShaped_elim (hmem b hb) with ⟨d', s2', hk', hg', hlen', hdo'⟩
      rw [hk, hk'] at hlt
      rw [hdo, hdo']
      exact dateKey_lt hg hg' (by omega) hlt
  · decide

/-- C3 witness: the amended scan guarantee at the concrete scenario
store with limit 2 and date length 10. -/
theorem scenario3_reachable : Reachable scenario3 :=
  Reachable.put false false thirdByAna
    (Reachable.put false false secondByBob
      (Reachable.put false false firstByAna Reachable.init))

theorem C3_ordered_scan_witness :
    sortedStore scenario3.store ∧
    (∀ e ∈ scenario3.store,
      inRange (encodeKey [dateNS, []]) (encodeKey [dateNS, ['~']]) e.1 = true →
      dateShaped 10 e = true) ∧
    ((oldestPosts scenario3.store 2).length ≤ 2 ∧
      (oldestPosts scenario3.store 2).Pairwise
        (fun v w => ltStr (dateOf v) (dateOf w) = false)) :=
  ⟨(WF_reachable scenario3_reachable).1, by decide,
    C3_ordered_scan.1 scenario3.store 2 10 (WF_reachable scenario3_reachable).1
      (by decide)⟩

theorem leStr_append_left (x u v : Str) : leStr (x ++ u) (x ++ v) = leStr u v := by
  rw [leStr, leStr, ltStr_append_left]

theorem byKey_encode_split (V ss : Str) :
    encodeKey [byNS, V, ss] =
      (byNS ++ ['/'] ++ encodeURIComponent V) ++ '/' :: encodeURIComponent ss := by
  rw [encodeKey]
  simp only [List.map_cons, List.map_nil]
  rw [encodeURIComponent_plain (by decide)]
  rw [List.append_assoc, List.append_assoc]
  rfl

theorem slugOf_byKey (V s : Str) : slugOf (encodeKey [byNS, V, s]) = s := by
  rw [slugOf, decodeKey_encodeKey (by simp)]
  rfl

theorem mapGet_error {st : Store} {s : Str} :
    ∀ {l : List Str}, s ∈ l → sget st (encodeKey [postsNS, s]) = none →
    ∃ e, mapGet st l = Except.error e := by
  intro l
  induction l with
  | nil => intro hs _; cases hs
  | cons x r ih =>
    intro hs hg
    rcases List.mem_cons.mp hs with hs | hs
    · subst hs
      exact ⟨Err.notFound, by rw [mapGet, hg]⟩
    · cases hx : sget st (encodeKey [postsNS, x]) with
      | none => exact ⟨Err.notFound, by rw [mapGet, hx]⟩
      | some v =>
        rcases ih hs hg with ⟨e, he⟩
        exact ⟨e, by rw [mapGet, hx, he]⟩

theorem byKey_inRange {V s : Str}
    (hrange : leStr (encodeURIComponent s) ['~'] = true) :
    inRange (encodeKey [byNS, V, []]) (encodeKey [byNS, V, ['~']])
      (encodeKey [byNS, V, s]) = true := by
  have hsplit : ∀ t : Str,
      (byNS ++ ['/'] ++ encodeURIComponent V) ++ '/' :: t =
        ((byNS ++ ['/'] ++ encodeURIComponent V) ++ ['/']) ++ t := by
    intro t
    simp [List.append_assoc]
  rw [inRange, byKey_encode_split V [], byKey_encode_split V s,
    byKey_encode_split V ['~']]
  rw [show encodeURIComponent [] = ([] : Str) from rfl,
    show encodeURIComponent ['~'] = (['~'] : Str) from by decide]
  rw [hsplit [], hsplit (encodeURIComponent s), hsplit ['~']]
  rw [leStr_append_left, leStr_append_left]
  rw [show leStr [] (encodeURIComponent s) = true from by
    rw [leStr, ltStr_nil_right]
    rfl]
  rw [hrange]
  rfl

/-- The orphan store of the counterexample: one by-author index record
for author "ana" with slug "~~" and no primary record at all. -/
def orphanState : Store :=
  [(encodeKey [byNS, ['a', 'n', 'a'], ['~', '~']], Value.emptyV)]

/-- C9 counterexample: a by-author index record whose slug "~~" has no
corresponding primary record, yet `postsBy` for that author calls back
successfully with an empty list — the orphan is silently skipped,
because the encoded slug "~~" sorts after the upper bound "~" and the
scan never visits it. -/
theorem C9_orphan_cex :
    (encodeKey [byNS, ['a', 'n', 'a'], ['~', '~']], Value.emptyV) ∈ orphanState ∧
    sget orphanState (encodeKey [postsNS, ['~', '~']]) = none ∧
    postsBy orphanState ['a', 'n', 'a'] = Except.ok [] := by
  refine ⟨by decide, by decide, ?_⟩
  rfl

/-- C9 (amended): whenever a by-author index record for author V bears
a slug whose encoding sorts at or below the sentinel "~" (so the scan
visits it) and no primary record exists for that slug, `postsBy`
calls back with an error rather than silently skipping the slug. -/
theorem C9_orphan_error (st : Store) (V s : Str) (v : Value)
    (hmem : (encodeKey [byNS, V, s], v) ∈ st)
    (hrange : leStr (encodeURIComponent s) ['~'] = true)
    (hget : sget st (encodeKey [postsNS, s]) = none) :
    ∃ e, postsBy st V = Except.error e := by
  have hin := byKey_inRange (V := V) hrange
  have hkeymem : encodeKey [byNS, V, s] ∈
      (rangeScan st (encodeKey [byNS, V, []])
        (encodeKey [byNS, V, ['~']])).map Prod.fst :=
    List.mem_map.mpr ⟨(encodeKey [byNS, V, s], v),
      List.mem_filter.mpr ⟨hmem, hin⟩, rfl⟩
  have hslugmem : s ∈ ((rangeScan st (encodeKey [byNS, V, []])
      (encodeKey [byNS, V, ['~']])).map Prod.fst).map slugOf :=
    List.mem_map.mpr ⟨encodeKey [byNS, V, s], hkeymem, slugOf_byKey V s⟩
  rcases mapGet_error hslugmem hget with ⟨e, he⟩
  exact ⟨e, he⟩

/-- C9 witness: an in-range orphan (slug "zz") is reported as an error. -/
theorem C9_orphan_error_witness :
    ((encodeKey [byNS, ['a', 'n', 'a'], ['z', 'z']], Value.emptyV) ∈
      ([(encodeKey [byNS, ['a', 'n', 'a'], ['z', 'z']], Value.emptyV)] : Store)) ∧
    leStr (encodeURIComponent ['z', 'z']) ['~'] = true ∧
    sget [(encodeKey [byNS, ['a', 'n', 'a'], ['z', 'z']], Value.emptyV)]
      (encodeKey [postsNS, ['z', 'z']]) = none ∧
    (∃ e, postsBy [(encodeKey [byNS, ['a', 'n', 'a'], ['z', 'z']], Value.emptyV)]
      ['a', 'n', 'a'] = Except.error e) :=
  ⟨by decide, by decide, by decide,
    C9_orphan_error _ ['a', 'n', 'a'] ['z', 'z'] Value.emptyV
      (by decide) (by decide) (by decide)⟩

theorem encodeURIComponent_inj {a b : Str}
    (h : encodeURIComponent a = encodeURIComponent b) : a = b := by
  have hr := decodeURIComponent_encodeURIComponent a
  rw [h, decodeURIComponent_encodeURIComponent] at hr
  exact (Option.some.inj hr).symm

theorem ltStr_slash_indep : ∀ {α β : Str} (x y x' y' : Str),
    (∀ c ∈ α, ¬(c = '/')) → (∀ c ∈ β, ¬(c = '/')) → ¬(α = β) →
    ltStr (α ++ '/' :: x) (β ++ '/' :: y) = ltStr (α ++ '/' :: x') (β ++ '/' :: y')
  | [], [], _, _, _, _, _, _, hne => absurd rfl hne
  | [], b :: βt, x, y, x', y', _, hβ, _ => by
    have hb : ¬(b = '/') := hβ b (List.mem_cons_self _ _)
    rw [List.nil_append, List.nil_append, List.cons_append, List.cons_append,
      ltStr_cons_cons, ltStr_cons_cons]
    cases hc : chLt '/' b with
    | true => simp [hc]
    | false =>
      have hb2 : chLt b '/' = true := by
        cases hcb : chLt b '/'
        · exact absurd (chLt_connex hcb hc) hb
        · rfl
      simp [hc, hb2]
  | a :: αt, [], x, y, x', y', hα, _, _ => by
    have ha : ¬(a = '/') := hα a (List.mem_cons_self _ _)
    rw [List.nil_append, List.nil_append, List.cons_append, List.cons_append,
      ltStr_cons_cons, ltStr_cons_cons]
    cases hc : chLt a '/' with
    | true => simp [hc]
    | false =>
      have ha2 : chLt '/' a = true := by
        cases hca : chLt '/' a
        · exact absurd (chLt_connex hc hca) ha
        · rfl
      simp [hc, ha2]
  | a :: αt, b :: βt, x, y, x', y', hα, hβ, hne => by
    rw [List.cons_append, List.cons_append, List.cons_append, List.cons_append,
      ltStr_cons_cons, ltStr_cons_cons]
    cases hab : chLt a b with
    | true => rfl
    | false =>
      cases hba : chLt b a with
      | true => rfl
      | false =>
        have hae : a = b := chLt_connex hab hba
        subst hae
        have hne' : ¬(αt = βt) := fun hh => hne (by rw [hh])
        simp only [Bool.false_eq_true, if_false]
        exact ltStr_slash_indep x y x' y'
          (fun c hc => hα c (List.mem_cons_of_mem _ hc))
          (fun c hc => hβ c (List.mem_cons_of_mem _ hc)) hne'

theorem byKey_encode_split2 (V ss : Str) :
    encodeKey [byNS, V, ss] =
      (byNS ++ ['/']) ++ (encodeURIComponent V ++ '/' :: encodeURIComponent ss) := by
  rw [byKey_encode_split]
  simp [List.append_assoc]

theorem postKey_encode_split (ss : Str) :
    encodeKey [postsNS, ss] = postsNS ++ '/' :: encodeURIComponent ss := by
  rw [encodeKey]
  simp only [List.map_cons, List.map_nil]
  rw [encodeURIComponent_plain (by decide)]
  rfl

theorem dateKey_encode_split_plain (dd ss : Str) :
    encodeKey [dateNS, dd, ss] =
      dateNS ++ '/' :: (encodeURIComponent dd ++ '/' :: encodeURIComponent ss) := by
  rw [encodeKey]
  simp only [List.map_cons, List.map_nil]
  rfl

theorem postKey_not_byRange (V s : Str) :
    inRange (encodeKey [byNS, V, []]) (encodeKey [byNS, V, ['~']])
      (encodeKey [postsNS, s]) = false := by
  have h1 : ltStr (encodeKey [byNS, V, ['~']]) (encodeKey [postsNS, s]) = true := by
    rw [byKey_encode_split2, postKey_encode_split]
    rfl
  simp only [inRange, leStr]
  rw [h1]
  simp

theorem dateKey_not_byRange (V d s : Str) :
    inRange (encodeKey [byNS, V, []]) (encodeKey [byNS, V, ['~']])
      (encodeKey [dateNS, d, s]) = false := by
  have h1 : ltStr (encodeKey [byNS, V, ['~']]) (encodeKey [dateNS, d, s]) = true := by
    rw [byKey_encode_split2, dateKey_encode_split_plain]
    rfl
  simp only [inRange, leStr]
  rw [h1]
  simp

theorem append_slash_cancel {α β : Str} (h : α ++ '/' :: [] = β ++ '/' :: []) :
    α = β := by
  have := congrArg List.reverse h
  simp at this
  exact this

theorem byKey_other_not_byRange (V a s : Str) (hne : ¬(a = V)) :
    inRange (encodeKey [byNS, V, []]) (encodeKey [byNS, V, ['~']])
      (encodeKey [byNS, a, s]) = false := by
  have hne' : ¬(encodeURIComponent a = encodeURIComponent V) :=
    fun h => hne (encodeURIComponent_inj h)
  have hne'' : ¬(encodeURIComponent V = encodeURIComponent a) :=
    fun h => hne' h.symm
  have hsA := encodeURIComponent_no_slash a
  have hsV := encodeURIComponent_no_slash V
  rw [inRange, byKey_encode_split2 V [], byKey_encode_split2 V ['~'],
    byKey_encode_split2 a s]
  rw [leStr_append_left, leStr_append_left]
  rw [show encodeURIComponent [] = ([] : Str) from rfl]
  rw [show encodeURIComponent ['~'] = (['~'] : Str) from by decide]
  rw [leStr, leStr]
  rw [ltStr_slash_indep (encodeURIComponent s) [] [] [] hsA hsV hne']
  rw [ltStr_slash_indep ['~'] (encodeURIComponent s) [] [] hsV hsA hne'']
  cases hr1 : ltStr (encodeURIComponent a ++ '/' :: [])
      (encodeURIComponent V ++ '/' :: []) with
  | true => simp
  | false =>
    cases hr2 : ltStr (encodeURIComponent V ++ '/' :: [])
        (encodeURIComponent a ++ '/' :: []) with
    | true => simp
    | false =>
      exact absurd (append_slash_cancel (ltStr_connex hr1 hr2)) hne'

/-- The slug field of a returned full record. -/
def slugOfVal : Value → Str
  | Value.postV p => p.slug
  | _ => []

/-- Slug check on a decoded key: a two-component `posts` key must carry
a slug that is unescaped and at most the sentinel "~". -/
def slugOkDec : Option (List Str) → Bool
  | some (n :: s2 :: []) => !(n == postsNS) || (plainStr s2 && leStr s2 ['~'])
  | _ => true

/-- A primary record's slug is order-safe and within the sentinel
bound "~", checked on the decoded key shape. -/
def slugOk (e : Str × Value) : Bool := slugOkDec (decodeKey e.1)

theorem byKey_lt_iff (V s1 s2 : Str) :
    ltStr (encodeKey [byNS, V, s1]) (encodeKey [byNS, V, s2]) =
      ltStr (encodeURIComponent s1) (encodeURIComponent s2) := by
  rw [byKey_encode_split2 V s1, byKey_encode_split2 V s2, ltStr_append_left]
  rw [show encodeURIComponent V ++ '/' :: encodeURIComponent s1 =
      (encodeURIComponent V ++ ['/']) ++ encodeURIComponent s1 from by
        simp [List.append_assoc]]
  rw [show encodeURIComponent V ++ '/' :: encodeURIComponent s2 =
      (encodeURIComponent V ++ ['/']) ++ encodeURIComponent s2 from by
        simp [List.append_assoc]]
  rw [ltStr_append_left]

theorem forall₂_mem_right {α β : Type} {S : α → β → Prop} :
    ∀ {l : List α} {l' : List β}, List.Forall₂ S l l' →
    ∀ b ∈ l', ∃ a, a ∈ l ∧ S a b := by
  intro l l' h
  induction h with
  | nil => intro b hb; cases hb
  | cons hS hF ih =>
    intro b hb
    rcases List.mem_cons.mp hb with hb | hb
    · subst hb
      exact ⟨_, List.mem_cons_self _ _, hS⟩
    · rcases ih b hb with ⟨a, ha, hab⟩
      exact ⟨a, List.mem_cons_of_mem _ ha, hab⟩

theorem forall₂_mem_left {α β : Type} {S : α → β → Prop} :
    ∀ {l : List α} {l' : List β}, List.Forall₂ S l l' →
    ∀ a ∈ l, ∃ b, b ∈ l' ∧ S a b := by
  intro l l' h
  induction h with
  | nil => intro a ha; cases ha
  | cons hS hF ih =>
    intro a ha
    rcases List.mem_cons.mp ha with ha | ha
    · subst ha
      exact ⟨_, List.mem_cons_self _ _, hS⟩
    · rcases ih a ha with ⟨b, hb, hab⟩
      exact ⟨b, List.mem_cons_of_mem _ hb, hab⟩

theorem pairwise_of_forall₂ {α β : Type} {R : α → α → Prop} {R' : β → β → Prop}
    {S : α → β → Prop}
    (hcomp : ∀ a b a' b', S a a' → S b b' → R a b → R' a' b') :
    ∀ {l : List α} {l' : List β}, List.Forall₂ S l l' →
    l.Pairwise R → l'.Pairwise R' := by
  intro l l' hF
  induction hF with
  | nil => intro _; exact List.Pairwise.nil
  | cons hS hF2 ih =>
    intro hp
    rcases List.pairwise_cons.mp hp with ⟨hhead, htail⟩
    refine List.pairwise_cons.mpr ⟨?_, ih htail⟩
    intro b' hb'
    rcases forall₂_mem_right hF2 b' hb' with ⟨a, ha, hab⟩
    exact hcomp _ _ _ _ hS hab (hhead a ha)

theorem mapGet_ok {st : Store} : ∀ {l : List Str},
    (∀ s ∈ l, (sget st (encodeKey [postsNS, s])).isSome = true) →
    ∃ vs, mapGet st l = Except.ok vs ∧
      List.Forall₂ (fun s v => sget st (encodeKey [postsNS, s]) = some v) l vs := by
  intro l
  induction l with
  | nil => intro _; exact ⟨[], rfl, List.Forall₂.nil⟩
  | cons x r ih =>
    intro h
    have hx := h x (List.mem_cons_self _ _)
    cases hget : sget st (encodeKey [postsNS, x]) with
    | none => rw [hget] at hx; cases hx
    | some v =>
      rcases ih (fun s hs => h s (List.mem_cons_of_mem _ hs)) with ⟨vs, hmap, hF⟩
      exact ⟨v :: vs, by rw [mapGet, hget, hmap], List.Forall₂.cons hget hF⟩

theorem slugOk_postEntry {st : Store} (hok : ∀ e ∈ st, slugOk e = true)
    {p : Post} (hp : postEntry p ∈ st) :
    plainStr p.slug = true ∧ leStr p.slug ['~'] = true := by
  have h := hok _ hp
  rw [slugOk, decodeKey_postEntry] at h
  rw [slugOkDec] at h
  simp only [beq_self_eq_true, Bool.not_true, Bool.false_or, Bool.and_eq_true] at h
  exact h

theorem primary_shape {st : Store} (hwf : WF st) {s : Str} {v : Value}
    (hv : sget st (encodeKey [postsNS, s]) = some v) :
    ∃ p : Post, v = Value.postV p ∧ p.slug = s ∧ postEntry p ∈ st := by
  have hm := mem_of_sget hv
  rcases hwf.2 _ hm with ⟨q, hqp, hqb, hqd, hform⟩
  rcases hform with hf | hf | hf
  · have hk : encodeKey [postsNS, s] = encodeKey [postsNS, q.slug] :=
      congrArg Prod.fst hf
    have hv2 : v = Value.postV q := congrArg Prod.snd hf
    exact ⟨q, hv2, ((encodeKey_pair_inj hk).2).symm, hqp⟩
  · have hk : encodeKey [postsNS, s] = encodeKey [byNS, q.author, q.slug] :=
      congrArg Prod.fst hf
    exact absurd hk (encodeKey_pair_ne_triple _ _ _ _ _)
  · have hk : encodeKey [postsNS, s] = encodeKey [dateNS, q.date, q.slug] :=
      congrArg Prod.fst hf
    exact absurd hk (encodeKey_pair_ne_triple _ _ _ _ _)

theorem slugOfVal_sget {st : Store} (hwf : WF st) {s : Str} {v : Value}
    (hv : sget st (encodeKey [postsNS, s]) = some v) : slugOfVal v = s := by
  rcases primary_shape hwf hv with ⟨p, rfl, hps, _⟩
  exact hps

theorem byEntry_of_postEntry {st : Store} (hwf : WF st) {p : Post}
    (hp : postEntry p ∈ st) : byEntry p ∈ st := by
  rcases hwf.2 _ hp with ⟨q, hqp, hqb, hqd, hform⟩
  rcases hform with hf | hf | hf
  · have hpq : p = q := Value.postV.inj (congrArg Prod.snd hf)
    rw [hpq]
    exact hqb
  · have hv : Value.postV p = Value.emptyV := congrArg Prod.snd hf
    cases hv
  · have hv : Value.postV p = Value.projV q.title q.date q.author q.slug :=
      congrArg Prod.snd hf
    cases hv

/-- C6 (amended): on a well-formed store whose primary slugs are
unescaped and bounded by the sentinel "~", `postsBy` succeeds and
returns exactly the full records of the posts whose author equals the
query value, in ascending slug order. -/
theorem C6_posts_by (st : Store) (V : Str) (hwf : WF st)
    (hok : ∀ e ∈ st, slugOk e = true) :
    ∃ l, postsBy st V = Except.ok l ∧
      (∀ v, v ∈ l ↔
        ∃ p : Post, v = Value.postV p ∧ postEntry p ∈ st ∧ p.author = V) ∧
      l.Pairwise (fun v w => ltStr (slugOfVal v) (slugOfVal w) = true) := by
  have hs := hwf.1
  have hshape := hwf.2
  have hfltE : ∀ e ∈ rangeScan st (encodeKey [byNS, V, []])
      (encodeKey [byNS, V, ['~']]),
      ∃ p : Post, e = byEntry p ∧ postEntry p ∈ st ∧ p.author = V := by
    intro e he
    rcases List.mem_filter.mp he with ⟨hest, hin⟩
    rcases hshape e hest with ⟨q, hqp, hqb, hqd, hform⟩
    rcases hform with hf | hf | hf
    · subst hf
      have hin' : inRange (encodeKey [byNS, V, []]) (encodeKey [byNS, V, ['~']])
          (encodeKey [postsNS, q.slug]) = true := hin
      rw [postKey_not_byRange] at hin'
      cases hin'
    · subst hf
      by_cases ha : q.author = V
      · exact ⟨q, rfl, hqp, ha⟩
      · have hin' : inRange (encodeKey [byNS, V, []]) (encodeKey [byNS, V, ['~']])
            (encodeKey [byNS, q.author, q.slug]) = true := hin
        rw [byKey_other_not_byRange V q.author q.slug ha] at hin'
        cases hin'
    · subst hf
      have hin' : inRange (encodeKey [byNS, V, []]) (encodeKey [byNS, V, ['~']])
          (encodeKey [dateNS, q.date, q.slug]) = true := hin
      rw [dateKey_not_byRange] at hin'
      cases hin'
  have hfltR : ∀ p : Post, postEntry p ∈ st → p.author = V →
      byEntry p ∈ rangeScan st (encodeKey [byNS, V, []])
        (encodeKey [byNS, V, ['~']]) := by
    intro p hp ha
    have hb : byEntry p ∈ st := byEntry_of_postEntry hwf hp
    rcases slugOk_postEntry hok hp with ⟨hplain, hle⟩
    refine List.mem_filter.mpr ⟨hb, ?_⟩
    have hkey : (byEntry p).1 = encodeKey [byNS, V, p.slug] := by
      show encodeKey [byNS, p.author, p.slug] = encodeKey [byNS, V, p.slug]
      rw [ha]
    show inRange (encodeKey [byNS, V, []]) (encodeKey [byNS, V, ['~']])
      (byEntry p).1 = true
    rw [hkey]
    apply byKey_inRange
    rw [encodeURIComponent_plain hplain]
    exact hle
  have hslugs : ∀ s ∈ (((rangeScan st (encodeKey [byNS, V, []])
      (encodeKey [byNS, V, ['~']])).map Prod.fst).map slugOf),
      ∃ p : Post, s = p.slug ∧ postEntry p ∈ st ∧ p.author = V := by
    intro s hsm
    rcases List.mem_map.mp hsm with ⟨k, hkm, hks⟩
    rcases List.mem_map.mp hkm with ⟨e, hem, hek⟩
    rcases hfltE e hem with ⟨p, rfl, hp, ha⟩
    refine ⟨p, ?_, hp, ha⟩
    rw [← hks, ← hek]
    exact slugOf_byKey p.author p.slug
  have hall : ∀ s ∈ (((rangeScan st (encodeKey [byNS, V, []])
      (encodeKey [byNS, V, ['~']])).map Prod.fst).map slugOf),
      (sget st (encodeKey [postsNS, s])).isSome = true := by
    intro s hsm
    rcases hslugs s hsm with ⟨p, rfl, hp, _⟩
    rw [sget_of_mem hs hp]
    rfl
  obtain ⟨vs, hmap, hF⟩ := mapGet_ok hall
  refine ⟨vs, hmap, ?_, ?_⟩
  · intro v
    constructor
    · intro hv
      rcases forall₂_mem_right hF v hv with ⟨s, hsm, hget⟩
      rcases hslugs s hsm with ⟨p2, hs2, hp2, ha2⟩
      have hget2 : sget st (encodeKey [postsNS, s]) = some (Value.postV p2) := by
        rw [hs2]
        exact sget_of_mem hs hp2
      rw [hget] at hget2
      exact ⟨p2, Option.some.inj hget2, hp2, ha2⟩
    · rintro ⟨p, rfl, hp, ha⟩
      have hbf := hfltR p hp ha
      have hkm : (byEntry p).1 ∈ (rangeScan st (encodeKey [byNS, V, []])
          (encodeKey [byNS, V, ['~']])).map Prod.fst :=
        List.mem_map.mpr ⟨_, hbf, rfl⟩
      have hsm : p.slug ∈ ((rangeScan st (encodeKey [byNS, V, []])
          (encodeKey [byNS, V, ['~']])).map Prod.fst).map slugOf := by
        refine List.mem_map.mpr ⟨(byEntry p).1, hkm, ?_⟩
        exact slugOf_byKey p.author p.slug
      rcases forall₂_mem_left hF p.slug hsm with ⟨v2, hv2, hgv⟩
      have hveq : v2 = Value.postV p := by
        have h2 : sget st (encodeKey [postsNS, p.slug]) = some (Value.postV p) :=
          sget_of_mem hs hp
        rw [hgv] at h2
        exact Option.some.inj h2
      rw [← hveq]
      exact hv2
  · have hpK : (rangeScan st (encodeKey [byNS, V, []])
        (encodeKey [byNS, V, ['~']])).Pairwise
        (fun a b => ltStr a.1 b.1 = true) :=
      List.Pairwise.sublist (List.filter_sublist _) hs
    have hpS : ((((rangeScan st (encodeKey [byNS, V, []])
        (encodeKey [byNS, V, ['~']])).map Prod.fst).map slugOf)).Pairwise
        (fun a b => ltStr a b = true) := by
      rw [List.pairwise_map, List.pairwise_map]
      refine List.Pairwise.imp_of_mem ?_ hpK
      intro a b hma hmb hab
      rcases hfltE a hma with ⟨p, rfl, hpa, haa⟩
      rcases hfltE b hmb with ⟨q, rfl, hpb, hbb⟩
      rcases slugOk_postEntry hok hpa with ⟨hplA, _⟩
      rcases slugOk_postEntry hok hpb with ⟨hplB, _⟩
      have hab2 : ltStr (encodeKey [byNS, V, p.slug])
          (encodeKey [byNS, V, q.slug]) = true := by
        have e1 : (byEntry p).1 = encodeKey [byNS, V, p.slug] := by
          show encodeKey [byNS, p.author, p.slug] = encodeKey [byNS, V, p.slug]
          rw [haa]
        have e2 : (byEntry q).1 = encodeKey [byNS, V, q.slug] := by
          show encodeKey [byNS, q.author, q.slug] = encodeKey [byNS, V, q.slug]
          rw [hbb]
        rw [← e1, ← e2]
        exact hab
      rw [byKey_lt_iff, encodeURIComponent_plain hplA,
        encodeURIComponent_plain hplB] at hab2
      show ltStr (slugOf (encodeKey [byNS, p.author, p.slug]))
        (slugOf (encodeKey [byNS, q.author, q.slug])) = true
      rw [slugOf_byKey p.author p.slug, slugOf_byKey q.author q.slug]
      exact hab2
    refine pairwise_of_forall₂ ?_ hF hpS
    intro s1 s2 v1 v2 hS1 hS2 h12
    rw [slugOfVal_sget hwf hS1, slugOfVal_sget hwf hS2]
    exact h12

/-- A post whose slug "~~" encodes above the sentinel "~". -/
def tildePost : Post := ⟨['t'], ['d'], ['a', 'n', 'a'], ['~', '~'], ['x']⟩

/-- The store state after writing only that post through `putPost`. -/
def tildeState : LState := (putPost false false ⟨[], []⟩ tildePost).1

/-- C6 counterexample: in a store reachable through `putPost`, the post
with slug "~~" by author "ana" exists, yet `postsBy` for "ana" returns
the empty list: the slug's encoding sorts after the upper bound "~", so
the claimed sentinel property fails and the query misses the entity. -/
theorem C6_posts_by_cex :
    Reachable tildeState ∧
    postEntry tildePost ∈ tildeState.store ∧
    tildePost.author = ['a', 'n', 'a'] ∧
    postsBy tildeState.store ['a', 'n', 'a'] = Except.ok [] :=
  ⟨Reachable.put false false tildePost Reachable.init, by decide, rfl, rfl⟩

/-- C6 witness: the amended query theorem applied to the three-post
scenario store with author "ana". -/
theorem C6_posts_by_witness :
    WF scenario3.store ∧
    (∀ e ∈ scenario3.store, slugOk e = true) ∧
    (∃ l, postsBy scenario3.store ['a', 'n', 'a'] = Except.ok l ∧
      (∀ v, v ∈ l ↔
        ∃ p : Post, v = Value.postV p ∧ postEntry p ∈ scenario3.store ∧
          p.author = ['a', 'n', 'a']) ∧
      l.Pairwise (fun v w => ltStr (slugOfVal v) (slugOfVal w) = true)) :=
  ⟨WF_reachable scenario3_reachable, by decide,
    C6_posts_by scenario3.store ['a', 'n', 'a']
      (WF_reachable scenario3_reachable) (by decide)⟩

/-- A system of two interleaved `putPost` calls (no injected store
failures): the shared level state plus each call's progress.  A
scheduler choice `false` advances call 1 on post `p1`, `true` advances
call 2 on post `p2`; a completed call is unaffected by further turns. -/
def sysStep (p1 p2 : Post) (who : Bool) (s : LState × CallSt × CallSt) :
    LState × CallSt × CallSt :=
  if who then
    ((stepCall false false p2 (s.1, s.2.2)).1, s.2.1,
      (stepCall false false p2 (s.1, s.2.2)).2)
  else
    ((stepCall false false p1 (s.1, s.2.1)).1,
      (stepCall false false p1 (s.1, s.2.1)).2, s.2.2)

/-- Run the two-call system under a schedule of turns. -/
def sysRun (p1 p2 : Post) (sched : List Bool) (s : LState × CallSt × CallSt) :
    LState × CallSt × CallSt :=
  sched.foldl (fun acc who => sysStep p1 p2 who acc) s

/-- The states the system can occupy once call 2 has lost the lock
race: call 2 is finished with an immediate Conflict and zero unlocks,
while call 1 holds the lock at stage 1 or 2 over the original store, or
has completed successfully with the batch applied and the lock gone. -/
def corridor (p1 : Post) (st0 : LState) (s : LState × CallSt × CallSt) : Prop :=
  s.2.2 = ⟨3, some Err.conflict, 0⟩ ∧
  ((s.1 = ⟨st0.store, postKeyOf p1 :: st0.locks⟩ ∧ s.2.1 = ⟨1, none, 0⟩) ∨
   (s.1 = ⟨st0.store, postKeyOf p1 :: st0.locks⟩ ∧ s.2.1 = ⟨2, none, 0⟩) ∨
   (s.1 = ⟨batchPut st0.store (batchOf p1), st0.locks⟩ ∧ s.2.1 = ⟨3, none, 1⟩))

theorem corridor_step (p1 p2 : Post) (st0 : LState)
    (hfree : sget st0.store (postKeyOf p1) = none)
    (who : Bool) {s : LState × CallSt × CallSt}
    (h : corridor p1 st0 s) : corridor p1 st0 (sysStep p1 p2 who s) := by
  rcases s with ⟨st, c1, c2⟩
  rcases h with ⟨h2, hcor⟩
  cases h2
  cases who with
  | true =>
    rw [sysStep, if_pos rfl]
    dsimp only
    rw [stepCall_done false false p2 st ⟨3, some Err.conflict, 0⟩ rfl]
    exact ⟨rfl, hcor⟩
  | false =>
    rw [sysStep, if_neg (by decide)]
    dsimp only
    rcases hcor with ⟨hst, hc1⟩ | ⟨hst, hc1⟩ | ⟨hst, hc1⟩
    · cases hst
      cases hc1
      rw [stepCall_read_free false (postKeyOf p1 :: st0.locks)
        (by rw [hfree]; rfl)]
      exact ⟨rfl, Or.inr (Or.inl ⟨rfl, rfl⟩)⟩
    · cases hst
      cases hc1
      rw [stepCall_batch_ok false p1 st0.store (postKeyOf p1 :: st0.locks)]
      rw [List.erase_cons_head]
      exact ⟨rfl, Or.inr (Or.inr ⟨rfl, rfl⟩)⟩
    · cases hst
      cases hc1
      rw [stepCall_done false false p1 _ ⟨3, none, 1⟩ rfl]
      exact ⟨rfl, Or.inr (Or.inr ⟨rfl, rfl⟩)⟩

theorem corridor_run (p1 p2 : Post) (st0 : LState)
    (hfree : sget st0.store (postKeyOf p1) = none)
    (sched : List Bool) :
    ∀ {s : LState × CallSt × CallSt}, corridor p1 st0 s →
      corridor p1 st0 (sysRun p1 p2 sched s) := by
  induction sched with
  | nil => intro s h; exact h
  | cons w r ih =>
    intro s h
    exact ih (corridor_step p1 p2 st0 hfree w h)

/-- C8: when two `putPost` calls target the same slug and the second
begins while the first is in flight — after the first has taken the
lock (one or two stages in) but not completed — the second call's very
first turn ends it with Conflict and no unlock, and under every
continuation of the schedule it stays at that immediate Conflict while
the first call, once complete, has succeeded. -/
theorem C8_concurrent_same_slug (p1 p2 : Post) (st0 : LState) (k : Nat)
    (s1 : LState × CallSt × CallSt)
    (hslug : p1.slug = p2.slug)
    (hlock : ¬(postKeyOf p1 ∈ st0.locks))
    (hfree : sget st0.store (postKeyOf p1) = none)
    (hk : k = 1 ∨ k = 2)
    (hmid : s1 = sysRun p1 p2 (List.replicate k false) (st0, initCall, initCall)) :
    (s1.2.1.pc ≠ 0 ∧ s1.2.1.pc ≠ 3) ∧
    (sysStep p1 p2 true s1).2.2 = ⟨3, some Err.conflict, 0⟩ ∧
    ∀ rest : List Bool,
      (sysRun p1 p2 rest (sysStep p1 p2 true s1)).2.2 =
        ⟨3, some Err.conflict, 0⟩ ∧
      ((sysRun p1 p2 rest (sysStep p1 p2 true s1)).2.1.pc = 3 →
        (sysRun p1 p2 rest (sysStep p1 p2 true s1)).2.1 = ⟨3, none, 1⟩) := by
  have hkk : postKeyOf p2 = postKeyOf p1 := by
    rw [postKeyOf, postKeyOf, hslug]
  have h1 : sysStep p1 p2 false (st0, initCall, initCall) =
      (⟨st0.store, postKeyOf p1 :: st0.locks⟩, ⟨1, none, 0⟩, initCall) := by
    rw [sysStep, if_neg (by decide)]
    dsimp only
    rw [stepCall_start_lock false false hlock]
  have hs1 : s1 = (⟨st0.store, postKeyOf p1 :: st0.locks⟩, ⟨1, none, 0⟩, initCall) ∨
      s1 = (⟨st0.store, postKeyOf p1 :: st0.locks⟩, ⟨2, none, 0⟩, initCall) := by
    rcases hk with rfl | rfl
    · left
      rw [hmid]
      show sysStep p1 p2 false (st0, initCall, initCall) = _
      exact h1
    · right
      rw [hmid]
      show sysStep p1 p2 false (sysStep p1 p2 false (st0, initCall, initCall)) = _
      rw [h1, sysStep, if_neg (by decide)]
      dsimp only
      rw [stepCall_read_free false (postKeyOf p1 :: st0.locks) (by rw [hfree]; rfl)]
  have hmem : postKeyOf p2 ∈
      (⟨st0.store, postKeyOf p1 :: st0.locks⟩ : LState).locks := by
    rw [hkk]
    exact List.mem_cons_self _ _
  rcases hs1 with rfl | rfl
  · have hstep : sysStep p1 p2 true
        ((⟨st0.store, postKeyOf p1 :: st0.locks⟩ : LState),
          (⟨1, none, 0⟩ : CallSt), initCall) =
        (⟨st0.store, postKeyOf p1 :: st0.locks⟩, ⟨1, none, 0⟩,
          ⟨3, some Err.conflict, 0⟩) := by
      rw [sysStep, if_pos rfl]
      dsimp only
      rw [stepCall_start_conflict false false hmem]
    refine ⟨⟨(by decide : (1 : Nat) ≠ 0), (by decide : (1 : Nat) ≠ 3)⟩, ?_, ?_⟩
    · rw [hstep]
    · intro rest
      rw [hstep]
      have hcorr : corridor p1 st0 (⟨st0.store, postKeyOf p1 :: st0.locks⟩,
          ⟨1, none, 0⟩, ⟨3, some Err.conflict, 0⟩) :=
        ⟨rfl, Or.inl ⟨rfl, rfl⟩⟩
      rcases corridor_run p1 p2 st0 hfree rest hcorr with ⟨hc2, hcor⟩
      refine ⟨hc2, ?_⟩
      intro hpc
      rcases hcor with ⟨_, hc1⟩ | ⟨_, hc1⟩ | ⟨_, hc1⟩
      · rw [hc1] at hpc
        exact absurd hpc (by decide)
      · rw [hc1] at hpc
        exact absurd hpc (by decide)
      · exact hc1
  · have hstep : sysStep p1 p2 true
        ((⟨st0.store, postKeyOf p1 :: st0.locks⟩ : LState),
          (⟨2, none, 0⟩ : CallSt), initCall) =
        (⟨st0.store, postKeyOf p1 :: st0.locks⟩, ⟨2, none, 0⟩,
          ⟨3, some Err.conflict, 0⟩) := by
      rw [sysStep, if_pos rfl]
      dsimp only
      rw [stepCall_start_conflict false false hmem]
    refine ⟨⟨(by decide : (2 : Nat) ≠ 0), (by decide : (2 : Nat) ≠ 3)⟩, ?_, ?_⟩
    · rw [hstep]
    · intro rest
      rw [hstep]
      have hcorr : corridor p1 st0 (⟨st0.store, postKeyOf p1 :: st0.locks⟩,
          ⟨2, none, 0⟩, ⟨3, some Err.conflict, 0⟩) :=
        ⟨rfl, Or.inr (Or.inl ⟨rfl, rfl⟩)⟩
      rcases corridor_run p1 p2 st0 hfree rest hcorr with ⟨hc2, hcor⟩
      refine ⟨hc2, ?_⟩
      intro hpc
      rcases hcor with ⟨_, hc1⟩ | ⟨_, hc1⟩ | ⟨_, hc1⟩
      · rw [hc1] at hpc
        exact absurd hpc (by decide)
      · rw [hc1] at hpc
        exact absurd hpc (by decide)
      · exact hc1

/-- C8 witness: two calls for the slug of the first scenario post on
the empty store, call 2 arriving after call 1's first stage; call 2
conflicts immediately and call 1 finishes successfully. -/
theorem C8_concurrent_same_slug_witness :
    (¬(postKeyOf firstByAna ∈ (⟨[], []⟩ : LState).locks)) ∧
    sget (⟨[], []⟩ : LState).store (postKeyOf firstByAna) = none ∧
    (sysRun firstByAna firstByAna [false]
      ((⟨[], []⟩ : LState), initCall, initCall)).2.1.pc ≠ 3 ∧
    (sysStep firstByAna firstByAna true (sysRun firstByAna firstByAna [false]
      ((⟨[], []⟩ : LState), initCall, initCall))).2.2 =
        ⟨3, some Err.conflict, 0⟩ ∧
    (sysRun firstByAna firstByAna [false, false]
      (sysStep firstByAna firstByAna true (sysRun firstByAna firstByAna [false]
        ((⟨[], []⟩ : LState), initCall, initCall)))).2.1 = ⟨3, none, 1⟩ := by
  have h := C8_concurrent_same_slug firstByAna firstByAna ⟨[], []⟩ 1
    (sysRun firstByAna firstByAna (List.replicate 1 false)
      ((⟨[], []⟩ : LState), initCall, initCall))
    rfl (by decide) (by decide) (Or.inl rfl) rfl
  exact ⟨by decide, by decide, h.1.2, h.2.1,
    (h.2.2 [false, false]).2 (by decide)⟩
